import Mathlib

/-!
Verification development for the chess engine core of the `chess_bot`
repository: the transposition table (`src/engine/transposition.py`), the
iterative-deepening alpha-beta searcher (`src/engine/minimax.py`) and the
static evaluator (`src/engine/evaluator.py`).

The rules engine (the `python-chess` library) is external to the core: it is
modelled as an abstract interface (`Game` for the searcher, `EvalCtx` for the
evaluator) supplying legal moves, push of a move, terminal predicates and
board accessors.  Machine integers of Python are unbounded, so scores are
plain `Int`; the evaluator's floating-point weights are modelled as the
rational numbers written in the source.  Wall-clock deadline checks
(`ChessEngine._time_up`) are modelled by an oracle `Nat → Bool` consumed one
tick per call, threaded through the search state.
-/

/-- MATE_SCORE constant from `src/engine/evaluator.py`. -/
def MATE_SCORE : Int := 100000

/-- Moves as the engine sees them: from-square, to-square, optional
promotion piece type (`chess.Move`); equality is structural. -/
structure Move' where
  from_sq : Nat
  to_sq : Nat
  promotion : Option Nat
deriving DecidableEq, Repr

/-- NodeType from `src/engine/transposition.py`. -/
inductive NodeType where
  | EXACT
  | LOWER_BOUND
  | UPPER_BOUND
deriving DecidableEq, Repr

/-- TTEntry from `src/engine/transposition.py`. -/
structure TTEntry where
  hash_key : Nat
  depth : Nat
  score : Int
  node_type : NodeType
  best_move : Option Move'
  age : Nat
deriving DecidableEq, Repr

/-- Lookup in a Python dict keyed by `Nat`, modelled as an association
list. -/
def lookupIdx {V : Type} : List (Nat × V) → Nat → Option V
  | [], _ => none
  | p :: ps, k => if p.1 = k then some p.2 else lookupIdx ps k

/-- Assignment `d[k] = v` on a Python dict modelled as an association list:
replace the binding when the key is present, otherwise add it. -/
def dictSet {V : Type} (t : List (Nat × V)) (k : Nat) (v : V) : List (Nat × V) :=
  if (lookupIdx t k).isSome then t.map (fun p => if p.1 = k then (k, v) else p)
  else (k, v) :: t

/-- State of `TranspositionTable`: the entry dict, the age counter and the
capacity `max_entries` fixed at construction. The Zobrist key tables are
seeded pseudo-random data; the induced hash function is passed to each
operation as `hp` (it is fixed per table instance). -/
structure TranspositionTable where
  maxEntries : Nat
  table : List (Nat × TTEntry)
  age : Nat
deriving Repr

/-- TranspositionTable.__init__: `max_entries = size_mb * 1024 * 1024 // 64`,
empty dict, age 0. -/
def TranspositionTable.init (sizeMB : Nat) : TranspositionTable :=
  { maxEntries := sizeMB * 1024 * 1024 / 64, table := [], age := 0 }

/-- TranspositionTable.store: index by `hash % max_entries`; replace an
existing entry iff it is a colliding key or the new depth is
greater-or-equal; insert when the slot is empty. -/
def TranspositionTable.store {B : Type} (hp : B → Nat) (tt : TranspositionTable)
    (b : B) (depth : Nat) (score : Int) (node_type : NodeType)
    (best_move : Option Move') : TranspositionTable :=
  let hash_key := hp b
  let index := hash_key % tt.maxEntries
  let entry : TTEntry := ⟨hash_key, depth, score, node_type, best_move, tt.age⟩
  match lookupIdx tt.table index with
  | some existing =>
    if existing.hash_key ≠ hash_key ∨ existing.depth ≤ depth then
      { tt with table := dictSet tt.table index entry }
    else tt
  | none =>
    { tt with table := dictSet tt.table index entry }

/-- TranspositionTable.probe: O(1) lookup at `hash % max_entries`, returning
the stored entry only when its `hash_key` matches exactly. -/
def TranspositionTable.probe {B : Type} (hp : B → Nat) (tt : TranspositionTable)
    (b : B) : Option TTEntry :=
  let hash_key := hp b
  let index := hash_key % tt.maxEntries
  match lookupIdx tt.table index with
  | some entry => if entry.hash_key = hash_key then some entry else none
  | none => none

/-- TranspositionTable.new_search: increment the age counter. -/
def TranspositionTable.newSearch (tt : TranspositionTable) : TranspositionTable :=
  { tt with age := tt.age + 1 }

/-- TranspositionTable.clear: empty the dict and reset the age. -/
def TranspositionTable.clear (tt : TranspositionTable) : TranspositionTable :=
  { tt with table := [], age := 0 }

/-- Rules-engine interface consumed by `ChessEngine` (`python-chess` board
operations, assumed correct per the spec): legal move generation, playing a
move (functionally: the board after `push`), terminal predicates, capture
test, piece type at a square (for MVV-LVA), game ply count, the static
evaluation consumed by the search, and the Zobrist hash of a position
(`TranspositionTable.hash_position` with its seeded key tables). -/
structure Game (B : Type) where
  legalMoves : B → List Move'
  push : B → Move' → B
  isCheckmate : B → Bool
  isStalemate : B → Bool
  isInsufficientMaterial : B → Bool
  canClaimDraw : B → Bool
  isCapture : B → Move' → Bool
  pieceTypeAt : B → Nat → Option Nat
  ply : B → Nat
  evaluate : B → Int
  hashPosition : B → Nat

/-- Insert into a list sorted by strictly-descending-compatible order on the
first component, placing the new element before the first element of
smaller-or-equal score.  Folding `insertDesc` right-to-left over a list is a
stable descending sort, the behaviour of Python's
`list.sort(key=score, reverse=True)`. -/
def insertDesc (x : Int × Move') : List (Int × Move') → List (Int × Move')
  | [] => [x]
  | y :: ys => if y.1 ≤ x.1 then x :: y :: ys else y :: insertDesc x ys

/-- Stable descending sort by score (Python `sort(key=..., reverse=True)`). -/
def sortDesc : List (Int × Move') → List (Int × Move')
  | [] => []
  | x :: xs => insertDesc x (sortDesc xs)

/-- Move score assigned by `ChessEngine._order_moves`: hash move, then
captures by MVV-LVA, then (while `depth < len(self.killer_moves) = 64`, which
always holds in practice) the two killer slots, then promotions, then the
history weight.  The promotion and history branches sit on the same
`elif` chain as the killer branch, exactly as in the source. -/
def moveScore {B : Type} (g : Game B) (killers : Nat → Option Move' × Option Move')
    (history : Nat × Nat → Int) (b : B) (depth : Nat) (hashMove : Option Move')
    (m : Move') : Int :=
  if some m = hashMove then 10000000
  else if g.isCapture b m then
    match g.pieceTypeAt b m.to_sq, g.pieceTypeAt b m.from_sq with
    | some victim, some attacker => 1000000 + (victim : Int) * 100 - (attacker : Int)
    | _, _ => 1000000
  else if depth < 64 then
    if some m = (killers depth).1 then 900000
    else if some m = (killers depth).2 then 800000
    else 0
  else
    match m.promotion with
    | some p => 700000 + (p : Int)
    | none => history (m.from_sq, m.to_sq)

/-- ChessEngine._order_moves: score every legal move and sort by score
descending (stable). -/
def orderMoves {B : Type} (g : Game B) (killers : Nat → Option Move' × Option Move')
    (history : Nat × Nat → Int) (b : B) (depth : Nat) (hashMove : Option Move') :
    List Move' :=
  (sortDesc ((g.legalMoves b).map
    (fun m => (moveScore g killers history b depth hashMove m, m)))).map Prod.snd

/-- ChessEngine._get_captures: capture moves ordered by MVV-LVA. -/
def getCaptures {B : Type} (g : Game B) (b : B) : List Move' :=
  (sortDesc (((g.legalMoves b).filter (g.isCapture b)).map
    (fun m =>
      (match g.pieceTypeAt b m.to_sq, g.pieceTypeAt b m.from_sq with
       | some victim, some attacker => (victim : Int) * 100 - (attacker : Int)
       | _, _ => 0, m)))).map Prod.snd

/-- Mutable engine state of `ChessEngine`: node counter, the count of
`_time_up` calls made so far (the deadline oracle is read at this index),
TT-hit statistic, the transposition table, the 64-slot killer table and the
history dict (absent keys read as 0). -/
structure EngineSt where
  nodes : Nat
  clock : Nat
  ttHits : Nat
  tt : TranspositionTable
  killers : Nat → Option Move' × Option Move'
  history : Nat × Nat → Int

/-- EngineCfg: the constructor parameters of `ChessEngine` that the model
retains (`time_limit` is the oracle). -/
structure EngineCfg where
  maxDepth : Nat
  useQuiescence : Bool
  quiescenceDepth : Nat
  ttSizeMB : Nat

/-- Fresh `ChessEngine.__init__` state. -/
def engineInit (cfg : EngineCfg) : EngineSt :=
  { nodes := 0, clock := 0, ttHits := 0, tt := TranspositionTable.init cfg.ttSizeMB,
    killers := fun _ => (none, none), history := fun _ => 0 }

/-- ChessEngine._store_killer: ignore out-of-range depths, never store the
same move twice in a row, displace the older killer. -/
def storeKiller (st : EngineSt) (m : Move') (depth : Nat) : EngineSt :=
  if 64 ≤ depth then st
  else if (st.killers depth).1 = some m then st
  else { st with killers := fun i =>
          if i = depth then (some m, (st.killers depth).1) else st.killers i }

/-- ChessEngine._time_up modelled cooperatively: read the deadline oracle at
the current call index and advance the index. -/
def timeUpCall (o : Nat → Bool) (st : EngineSt) : Bool × EngineSt :=
  (o st.clock, { st with clock := st.clock + 1 })

/-- Loop body of `ChessEngine._quiescence` over the capture list, with the
recursive call at the next-smaller quiescence depth passed as `qrec`.  The
source's lines 284-288 run the same recursion in both branches of the
`is_check` test, so a single call is the faithful rendering. -/
def qsList {B : Type} (g : Game B) (β : Int)
    (qrec : Nat → B → Int → Int → Int × Nat) (b : B) :
    List Move' → Int → Nat → Int × Nat
  | [], α, n => (α, n)
  | m :: ms, α, n =>
    let r := qrec n (g.push b m) (-β) (-α)
    let s := -r.1
    if β ≤ s then (β, r.2)
    else qsList g β qrec b ms (max α s) r.2

/-- ChessEngine._quiescence: stand pat first; at exhausted depth return the
stand-pat score; otherwise beta-cut on stand pat, raise alpha, and search
only captures.  The node counter is threaded as the extra `Nat`. -/
def quiescence {B : Type} (g : Game B) : Nat → Nat → B → Int → Int → Int × Nat
  | 0, n, b, _, _ => (g.evaluate b, n + 1)
  | d + 1, n, b, α, β =>
    let stand := g.evaluate b
    if β ≤ stand then (β, n + 1)
    else qsList g β (quiescence g d) b (getCaptures g b) (max α stand) (n + 1)

/-- Body of `ChessEngine._alpha_beta` after the node count and deadline
bookkeeping: terminal checks (checkmate scored `-MATE_SCORE + board.ply()`,
draws 0) take precedence, then the transposition probe with its EXACT
return and alpha/beta tightening; the continuation `k` receives the
possibly tightened window and the raw probe result (kept for the hash move
even when the entry is too shallow). -/
def abCore {B : Type} (g : Game B) (d : Nat) (b : B) (α β : Int)
    (st2 : EngineSt)
    (k : Int → Int → Option TTEntry → EngineSt → Int × EngineSt) :
    Int × EngineSt :=
  if g.isCheckmate b then (-MATE_SCORE + (g.ply b : Int), st2)
  else if g.isStalemate b || g.isInsufficientMaterial b || g.canClaimDraw b then
    (0, st2)
  else
    match TranspositionTable.probe g.hashPosition st2.tt b with
    | some e =>
      if d ≤ e.depth then
        let st3 : EngineSt := { st2 with ttHits := st2.ttHits + 1 }
        match e.node_type with
        | NodeType.EXACT => (e.score, st3)
        | NodeType.LOWER_BOUND =>
          let α' := max α e.score
          if β ≤ α' then (e.score, st3) else k α' β (some e) st3
        | NodeType.UPPER_BOUND =>
          let β' := min β e.score
          if β' ≤ α then (e.score, st3) else k α β' (some e) st3
      else k α β (some e) st2
    | none => k α β none st2

/-- Shared entry code of `ChessEngine._alpha_beta`: bump the node counter,
run the periodic deadline check (every 4096 nodes, returning the neutral 0
when expired), then the terminal / transposition body `abCore`. -/
def abPrelude {B : Type} (g : Game B) (o : Nat → Bool) (d : Nat) (b : B)
    (α β : Int) (st : EngineSt)
    (k : Int → Int → Option TTEntry → EngineSt → Int × EngineSt) :
    Int × EngineSt :=
  let st1 : EngineSt := { st with nodes := st.nodes + 1 }
  let tc : Bool × EngineSt :=
    if st1.nodes % 4096 = 0 then timeUpCall o st1 else (false, st1)
  if tc.1 then (0, tc.2)
  else abCore g d b α β tc.2 k

/-- Move loop of `ChessEngine._alpha_beta`: recurse negated on each move,
track the best score and move, raise alpha (crediting the history table on
a quiet alpha-raising move), and on beta cutoff record a quiet cutting move
as a killer and stop. -/
def abLoop {B : Type} (g : Game B) (depth : Nat) (b : B) (β : Int)
    (rec : B → Int → Int → EngineSt → Int × EngineSt) :
    List Move' → Int → Option Move' → Int → EngineSt →
    Int × Option Move' × EngineSt
  | [], best, bm, _, st => (best, bm, st)
  | m :: ms, best, bm, α, st =>
    let r := rec (g.push b m) (-β) (-α) st
    let s := -r.1
    let bb : Int × Option Move' := if best < s then (s, some m) else (best, bm)
    let aSt : Int × EngineSt :=
      if α < s then
        (s, if g.isCapture b m then r.2
            else { r.2 with history := fun kk =>
                    if kk = (m.from_sq, m.to_sq) then r.2.history kk + (depth : Int) * depth
                    else r.2.history kk })
      else (α, r.2)
    if β ≤ aSt.1 then
      (bb.1, bb.2, if g.isCapture b m then aSt.2 else storeKiller aSt.2 m depth)
    else abLoop g depth b β rec ms bb.1 bb.2 aSt.1 aSt.2

/-- ChessEngine._alpha_beta: the recursive pruning search.  At depth 0 the
leaf is quiescence (when enabled) or the static evaluation; at positive
depth the ordered move loop runs, and the result is stored in the
transposition table classified UPPER / LOWER / EXACT against the original
(post-tightening) alpha and the current beta. -/
def alphaBeta {B : Type} (g : Game B) (o : Nat → Bool) (cfg : EngineCfg) :
    Nat → B → Int → Int → EngineSt → Int × EngineSt
  | 0, b, α, β, st =>
    abPrelude g o 0 b α β st (fun α' β' _ st' =>
      if cfg.useQuiescence then
        let r := quiescence g cfg.quiescenceDepth st'.nodes b α' β'
        (r.1, { st' with nodes := r.2 })
      else (g.evaluate b, st'))
  | e + 1, b, α, β, st =>
    abPrelude g o (e + 1) b α β st (fun α' β' ent st' =>
      let hashMove : Option Move' := ent.bind TTEntry.best_move
      let moves := orderMoves g st'.killers st'.history b (e + 1) hashMove
      let r := abLoop g (e + 1) b β' (alphaBeta g o cfg e) moves (-MATE_SCORE) none α' st'
      let node_type :=
        if r.1 ≤ α' then NodeType.UPPER_BOUND
        else if β' ≤ r.1 then NodeType.LOWER_BOUND
        else NodeType.EXACT
      (r.1, { r.2.2 with tt :=
        TranspositionTable.store g.hashPosition r.2.2.tt b (e + 1) r.1 node_type r.2.1 }))

/-- Root move loop of `ChessEngine._search_root`: deadline check between
move iterations, full-window negamax recursion, best score and move
tracking, alpha raised as better moves are found (no beta cutoff at the
root). -/
def rootLoop {B : Type} (g : Game B) (o : Nat → Bool) (cfg : EngineCfg)
    (b : B) (d : Nat) :
    List Move' → Int → Option Move' → Int → EngineSt →
    Int × Option Move' × EngineSt
  | [], best, bm, _, st => (best, bm, st)
  | m :: ms, best, bm, α, st =>
    let tc := timeUpCall o st
    if tc.1 then (best, bm, tc.2)
    else
      let r := alphaBeta g o cfg (d - 1) (g.push b m) (-MATE_SCORE) (-α) tc.2
      let s := -r.1
      let bb : Int × Option Move' := if best < s then (s, some m) else (best, bm)
      let α' := if α < s then s else α
      rootLoop g o cfg b d ms bb.1 bb.2 α' r.2

/-- ChessEngine._search_root: order the legal moves (no hash move at the
root) and run the root loop with the full window. -/
def searchRoot {B : Type} (g : Game B) (o : Nat → Bool) (cfg : EngineCfg)
    (b : B) (d : Nat) (st : EngineSt) : Int × Option Move' × EngineSt :=
  let moves := orderMoves g st.killers st.history b d none
  rootLoop g o cfg b d moves (-MATE_SCORE) none (-MATE_SCORE) st

/-- Iterative-deepening loop of `ChessEngine.find_best_move` over the
remaining depths: deadline check before each depth; a completed depth's
move is adopted only when it exists and the deadline has still not passed;
stop early once a forced mate score appears. -/
def idLoop {B : Type} (g : Game B) (o : Nat → Bool) (cfg : EngineCfg) (b : B) :
    List Nat → Option Move' → EngineSt → Option Move' × EngineSt
  | [], bm, st => (bm, st)
  | d :: ds, bm, st =>
    let tc := timeUpCall o st
    if tc.1 then (bm, tc.2)
    else
      let r := searchRoot g o cfg b d tc.2
      let adopt : Option Move' × EngineSt :=
        match r.2.1 with
        | some m =>
          let tc2 := timeUpCall o r.2.2
          if tc2.1 then (bm, tc2.2) else (some m, tc2.2)
        | none => (bm, r.2.2)
      if MATE_SCORE - 100 < |r.1| then adopt
      else idLoop g o cfg b ds adopt.1 adopt.2

/-- ChessEngine.find_best_move: defend against a position with no legal
moves, reset the per-search statistics and the deadline clock, bump the
table age, then iteratively deepen from depth 1 to the configured maximum. -/
def findBestMove {B : Type} (g : Game B) (o : Nat → Bool) (cfg : EngineCfg)
    (b : B) (st : EngineSt) : Option Move' × EngineSt :=
  if g.legalMoves b = [] then (none, st)
  else
    let st1 : EngineSt :=
      { st with nodes := 0, ttHits := 0, clock := 0,
                tt := TranspositionTable.newSearch st.tt }
    idLoop g o cfg b (List.range' 1 cfg.maxDepth) none st1

/-- ChessEngine.reset: clear the transposition table, re-create the killer
table, and clear the history dict. -/
def engineReset (st : EngineSt) : EngineSt :=
  { st with tt := TranspositionTable.clear st.tt,
            killers := fun _ => (none, none),
            history := fun _ => 0 }

/-- Piece as `chess.Piece`: piece type 1..6 (pawn..king) and color
(`true` = White). -/
structure Piece where
  piece_type : Nat
  color : Bool
deriving DecidableEq, Repr

/-- PAWN_TABLE from `src/engine/evaluator.py` (rows top to bottom as
written). -/
def pawnTable : List (List Int) :=
  [[  0,   0,   0,   0,   0,   0,   0,   0],
   [ 50,  50,  50,  50,  50,  50,  50,  50],
   [ 10,  10,  20,  30,  30,  20,  10,  10],
   [  5,   5,  10,  25,  25,  10,   5,   5],
   [  0,   0,   0,  20,  20,   0,   0,   0],
   [  5,  -5, -10,   0,   0, -10,  -5,   5],
   [  5,  10,  10, -20, -20,  10,  10,   5],
   [  0,   0,   0,   0,   0,   0,   0,   0]]

/-- KNIGHT_TABLE from `src/engine/evaluator.py`. -/
def knightTable : List (List Int) :=
  [[-50, -40, -30, -30, -30, -30, -40, -50],
   [-40, -20,   0,   0,   0,   0, -20, -40],
   [-30,   0,  10,  15,  15,  10,   0, -30],
   [-30,   5,  15,  20,  20,  15,   5, -30],
   [-30,   0,  15,  20,  20,  15,   0, -30],
   [-30,   5,  10,  15,  15,  10,   5, -30],
   [-40, -20,   0,   5,   5,   0, -20, -40],
   [-50, -40, -30, -30, -30, -30, -40, -50]]

/-- BISHOP_TABLE from `src/engine/evaluator.py`. -/
def bishopTable : List (List Int) :=
  [[-20, -10, -10, -10, -10, -10, -10, -20],
   [-10,   0,   0,   0,   0,   0,   0, -10],
   [-10,   0,   5,  10,  10,   5,   0, -10],
   [-10,   5,   5,  10,  10,   5,   5, -10],
   [-10,   0,  10,  10,  10,  10,   0, -10],
   [-10,  10,  10,  10,  10,  10,  10, -10],
   [-10,   5,   0,   0,   0,   0,   5, -10],
   [-20, -10, -10, -10, -10, -10, -10, -20]]

/-- ROOK_TABLE from `src/engine/evaluator.py`. -/
def rookTable : List (List Int) :=
  [[  0,   0,   0,   0,   0,   0,   0,   0],
   [  5,  10,  10,  10,  10,  10,  10,   5],
   [ -5,   0,   0,   0,   0,   0,   0,  -5],
   [ -5,   0,   0,   0,   0,   0,   0,  -5],
   [ -5,   0,   0,   0,   0,   0,   0,  -5],
   [ -5,   0,   0,   0,   0,   0,   0,  -5],
   [ -5,   0,   0,   0,   0,   0,   0,  -5],
   [  0,   0,   0,   5,   5,   0,   0,   0]]

/-- QUEEN_TABLE from `src/engine/evaluator.py`. -/
def queenTable : List (List Int) :=
  [[-20, -10, -10,  -5,  -5, -10, -10, -20],
   [-10,   0,   0,   0,   0,   0,   0, -10],
   [-10,   0,   5,   5,   5,   5,   0, -10],
   [ -5,   0,   5,   5,   5,   5,   0,  -5],
   [  0,   0,   5,   5,   5,   5,   0,  -5],
   [-10,   5,   5,   5,   5,   5,   0, -10],
   [-10,   0,   5,   0,   0,   0,   0, -10],
   [-20, -10, -10,  -5,  -5, -10, -10, -20]]

/-- KING_MIDDLEGAME_TABLE from `src/engine/evaluator.py`. -/
def kingMiddlegameTable : List (List Int) :=
  [[-30, -40, -40, -50, -50, -40, -40, -30],
   [-30, -40, -40, -50, -50, -40, -40, -30],
   [-30, -40, -40, -50, -50, -40, -40, -30],
   [-30, -40, -40, -50, -50, -40, -40, -30],
   [-20, -30, -30, -40, -40, -30, -30, -20],
   [-10, -20, -20, -20, -20, -20, -20, -10],
   [ 20,  20,   0,   0,   0,   0,  20,  20],
   [ 20,  30,  10,   0,   0,  10,  30,  20]]

/-- KING_ENDGAME_TABLE from `src/engine/evaluator.py`. -/
def kingEndgameTable : List (List Int) :=
  [[-50, -40, -30, -20, -20, -30, -40, -50],
   [-30, -20, -10,   0,   0, -10, -20, -30],
   [-30, -10,  20,  30,  30,  20, -10, -30],
   [-30, -10,  30,  40,  40,  30, -10, -30],
   [-30, -10,  30,  40,  40,  30, -10, -30],
   [-30, -10,  20,  30,  30,  20, -10, -30],
   [-30, -30,   0,   0,   0,   0, -30, -30],
   [-50, -30, -30, -30, -30, -30, -30, -50]]

/-- Indexing `table[row, col]` with numpy semantics on in-range indices. -/
def tableAt (t : List (List Int)) (row col : Nat) : Int :=
  (t.getD row []).getD col 0

/-- PIECE_VALUES from `src/engine/evaluator.py` keyed by piece type. -/
def pieceValue : Nat → Int
  | 1 => 100
  | 2 => 320
  | 3 => 330
  | 4 => 500
  | 5 => 900
  | 6 => 20000
  | _ => 0

/-- Rules-engine interface consumed by `Evaluator` (`python-chess` board
accessors, assumed correct): piece placement, side to move, terminal
predicates, legal move count, check test and the board produced by pushing
a null move. -/
structure EvalCtx (A : Type) where
  pieceAt : A → Nat → Option Piece
  turn : A → Bool
  isCheckmate : A → Bool
  isStalemate : A → Bool
  isInsufficientMaterial : A → Bool
  canClaimDraw : A → Bool
  legalMoveCount : A → Nat
  isCheck : A → Bool
  pushNullBoard : A → A

/-- Mutable `chess.Board` as the evaluator sees it: the current position and
the stack of saved positions maintained by `push` / `pop` (the rules
engine's exact-restore guarantee). -/
structure MBoard (A : Type) where
  cur : A
  stack : List A

/-- board.push(chess.Move.null()): save the current position and advance. -/
def MBoard.pushNull {A : Type} (ctx : EvalCtx A) (mb : MBoard A) : MBoard A :=
  ⟨ctx.pushNullBoard mb.cur, mb.cur :: mb.stack⟩

/-- board.pop(): restore the saved position (never called on an empty stack
by the evaluator). -/
def MBoard.pop {A : Type} (mb : MBoard A) : MBoard A :=
  match mb with
  | ⟨_, c :: rest⟩ => ⟨c, rest⟩
  | ⟨c, []⟩ => ⟨c, []⟩

/-- Squares (ascending, as `chess.SQUARES` and `SquareSet` iteration)
holding a given piece. -/
def piecesOf {A : Type} (ctx : EvalCtx A) (b : A) (pt : Nat) (color : Bool) :
    List Nat :=
  (List.range 64).filter (fun sq => ctx.pieceAt b sq = some ⟨pt, color⟩)

/-- Evaluator._evaluate_material: piece values times count difference, plus
the bishop-pair bonus for each side. -/
def evaluateMaterial {A : Type} (ctx : EvalCtx A) (b : A) : Int :=
  let count : Nat → Bool → Nat := fun pt c => (piecesOf ctx b pt c).length
  ([1, 2, 3, 4, 5, 6] : List Nat).foldl
    (fun acc pt => acc + pieceValue pt * ((count pt true : Int) - (count pt false : Int))) 0
  + (if 2 ≤ count 3 true then 50 else 0)
  - (if 2 ≤ count 3 false then 50 else 0)

/-- Evaluator._is_endgame: both queens off the board, or at most six
non-pawn non-king pieces remain. -/
def isEndgame {A : Type} (ctx : EvalCtx A) (b : A) : Bool :=
  let count : Nat → Bool → Nat := fun pt c => (piecesOf ctx b pt c).length
  if count 5 true = 0 ∧ count 5 false = 0 then true
  else decide (([2, 3, 4, 5] : List Nat).foldl
    (fun acc pt => acc + count pt true + count pt false) 0 ≤ 6)

/-- Evaluator._evaluate_piece_positions: per-square table bonus, the black
tables vertically flipped, the king switching to the endgame table in the
endgame. -/
def evaluatePiecePositions {A : Type} (ctx : EvalCtx A) (b : A) : Int :=
  let endg := isEndgame ctx b
  (List.range 64).foldl
    (fun acc sq =>
      match ctx.pieceAt b sq with
      | none => acc
      | some piece =>
        let row := 7 - sq / 8
        let col := sq % 8
        let baseT : List (List Int) :=
          match piece.piece_type with
          | 1 => pawnTable
          | 2 => knightTable
          | 3 => bishopTable
          | 4 => rookTable
          | 5 => queenTable
          | _ => kingMiddlegameTable
        let t : List (List Int) :=
          if piece.piece_type = 6 ∧ endg then
            (if piece.color then kingEndgameTable else kingEndgameTable.reverse)
          else (if piece.color then baseT else baseT.reverse)
        let v := tableAt t row col
        if piece.color then acc + v else acc - v) 0

/-- Evaluator._evaluate_mobility: count the mover's legal moves, toggle the
side to move with a null move to count the opponent's (0 when the null
leaves the opponent in check), restore the board, and scale the signed
difference. -/
def evaluateMobilityM {A : Type} (ctx : EvalCtx A) (mb : MBoard A) :
    Int × MBoard A :=
  let current := ctx.legalMoveCount mb.cur
  let mb1 := MBoard.pushNull ctx mb
  let opponent := if ctx.isCheck mb1.cur then 0 else ctx.legalMoveCount mb1.cur
  let mb2 := mb1.pop
  let mobility : Int := (current : Int) - (opponent : Int)
  let mobility := if ctx.turn mb2.cur = false then -mobility else mobility
  (mobility * 10, mb2)

/-- Evaluator._is_passed_pawn: no enemy pawn on the same or an adjacent
file that is strictly ahead of the pawn. -/
def isPassedPawn {A : Type} (ctx : EvalCtx A) (b : A) (pawnSq : Nat)
    (color : Bool) : Bool :=
  let file : Int := (pawnSq % 8 : Nat)
  let rank : Int := (pawnSq / 8 : Nat)
  (piecesOf ctx b 1 (!color)).all (fun esq =>
    let ef : Int := (esq % 8 : Nat)
    let er : Int := (esq / 8 : Nat)
    if |ef - file| ≤ 1 then
      if color then decide (er ≤ rank) else decide (rank ≤ er)
    else true)

/-- Evaluator._evaluate_pawn_structure: doubled and isolated pawn penalties
and the advance-scaled passed-pawn bonus, each mirrored for Black. -/
def evaluatePawnStructure {A : Type} (ctx : EvalCtx A) (b : A) : Int :=
  ([true, false] : List Bool).foldl
    (fun acc color =>
      let pawns := piecesOf ctx b 1 color
      let pawnFiles := pawns.map (fun sq => sq % 8)
      let mult : Int := if color then 1 else -1
      let acc := (List.range 8).foldl
        (fun a file =>
          let c := pawnFiles.count file
          if 1 < c then a - 20 * ((c : Int) - 1) * mult else a) acc
      let acc := pawns.foldl
        (fun a pawnSq =>
          let file := pawnSq % 8
          let hasNeighbor :=
            (0 < file ∧ (file - 1) ∈ pawnFiles) ∨ (file + 1 ≤ 7 ∧ (file + 1) ∈ pawnFiles)
          if hasNeighbor then a else a - 15 * mult) acc
      pawns.foldl
        (fun a pawnSq =>
          if isPassedPawn ctx b pawnSq color then
            let rank : Int := (pawnSq / 8 : Nat)
            let bonus : Int := if color then 20 + (rank - 1) * 10 else 20 + (6 - rank) * 10
            a + bonus * mult
          else a) acc) 0

/-- board.king(color): the highest square holding the king of that color
(python-chess takes the most significant bit of the king bitboard), `none`
when absent. -/
def kingSquare {A : Type} (ctx : EvalCtx A) (b : A) (color : Bool) : Option Nat :=
  (List.range 64).foldl
    (fun acc sq => if ctx.pieceAt b sq = some ⟨6, color⟩ then some sq else acc) none

/-- Evaluator._evaluate_king_safety: pawn-shield bonus on the three files in
front of the king and an open-file penalty, mirrored for Black; a side with
no king is skipped. -/
def evaluateKingSafety {A : Type} (ctx : EvalCtx A) (b : A) : Int :=
  ([true, false] : List Bool).foldl
    (fun acc color =>
      match kingSquare ctx b color with
      | none => acc
      | some kingSq =>
        let kingFile : Int := (kingSq % 8 : Nat)
        let kingRank : Int := (kingSq / 8 : Nat)
        let mult : Int := if color then 1 else -1
        let shieldRank : Int := kingRank + (if color then 1 else -1)
        let acc :=
          if 0 ≤ shieldRank ∧ shieldRank ≤ 7 then
            ([kingFile - 1, kingFile, kingFile + 1] : List Int).foldl
              (fun a f =>
                if 0 ≤ f ∧ f ≤ 7 then
                  let shieldSq := (f + shieldRank * 8).toNat
                  match ctx.pieceAt b shieldSq with
                  | some piece =>
                    if piece.piece_type = 1 ∧ piece.color = color then a + 10 * mult
                    else a
                  | none => a
                else a) acc
          else acc
        let fileHasPawn :=
          (piecesOf ctx b 1 color).any (fun sq => ((sq % 8 : Nat) : Int) = kingFile)
        if fileHasPawn then acc else acc - 20 * mult) 0

/-- Evaluator weights: the five floating-point multipliers fixed at
construction, modelled by the rationals the source literals denote. -/
structure EvalWeights where
  material_weight : ℚ
  position_weight : ℚ
  mobility_weight : ℚ
  king_safety_weight : ℚ
  pawn_structure_weight : ℚ

/-- Default Evaluator() weights: 1.0, 0.3, 0.1, 0.5, 0.2. -/
def defaultWeights : EvalWeights :=
  ⟨1, 3 / 10, 1 / 10, 5 / 10, 2 / 10⟩

/-- Evaluator.evaluate, with the board-state effects of the internal null
move threaded explicitly: terminal special cases first, then the weighted
sum of the integer sub-scores (king safety only outside the endgame),
sign-flipped when Black is to move.  The sum of float-weighted terms is
returned as is: the source performs no conversion back to `int`. -/
def evaluateM {A : Type} (w : EvalWeights) (ctx : EvalCtx A) (mb : MBoard A) :
    ℚ × MBoard A :=
  if ctx.isCheckmate mb.cur then (-(MATE_SCORE : ℚ), mb)
  else if ctx.isStalemate mb.cur || ctx.isInsufficientMaterial mb.cur then (0, mb)
  else if ctx.canClaimDraw mb.cur then (0, mb)
  else
    let mat := evaluateMaterial ctx mb.cur
    let pos := evaluatePiecePositions ctx mb.cur
    let mobR := evaluateMobilityM ctx mb
    let mb1 := mobR.2
    let ps := evaluatePawnStructure ctx mb1.cur
    let score : ℚ :=
      w.material_weight * (mat : ℚ) + w.position_weight * (pos : ℚ)
      + w.mobility_weight * (mobR.1 : ℚ) + w.pawn_structure_weight * (ps : ℚ)
    let score : ℚ :=
      if isEndgame ctx mb1.cur then score
      else score + w.king_safety_weight * (evaluateKingSafety ctx mb1.cur : ℚ)
    (if ctx.turn mb1.cur then score else -score, mb1)

/-- Value returned by Evaluator.evaluate. -/
def evaluateQ {A : Type} (w : EvalWeights) (ctx : EvalCtx A) (mb : MBoard A) : ℚ :=
  (evaluateM w ctx mb).1

/-- Exhaustive full-width quiescence value (spec reference, §8 alpha-beta
equivalence): the stand-pat score is a floor the mover can always keep, and
every capture is examined with no window. -/
def negaQVal {B : Type} (g : Game B) : Nat → B → Int
  | 0, b => g.evaluate b
  | d + 1, b =>
    ((g.legalMoves b).filter (g.isCapture b)).foldl
      (fun acc m => max acc (-(negaQVal g d (g.push b m)))) (g.evaluate b)

/-- Exhaustive full-width negamax of a fixed depth with no pruning and no
transposition table (spec reference, §8 alpha-beta equivalence), with the
engine's own terminal scoring and leaf evaluation. -/
def negamaxSpec {B : Type} (g : Game B) (cfg : EngineCfg) : Nat → B → Int
  | d, b =>
    if g.isCheckmate b then -MATE_SCORE + (g.ply b : Int)
    else if g.isStalemate b || g.isInsufficientMaterial b || g.canClaimDraw b then 0
    else
      match d with
      | 0 =>
        if cfg.useQuiescence then negaQVal g cfg.quiescenceDepth b else g.evaluate b
      | e + 1 =>
        (g.legalMoves b).foldl
          (fun acc m => max acc (-(negamaxSpec g cfg e (g.push b m)))) (-MATE_SCORE)

/-- Move loop of `ChessEngine._alpha_beta` with the bookkeeping that cannot
influence the returned score (history, killers, node counts) dropped. -/
def pureLoop {B : Type} (g : Game B) (b : B) (β : Int)
    (rec : B → Int → Int → Int) : List Move' → Int → Int → Int
  | [], best, _ => best
  | m :: ms, best, α =>
    let s := -(rec (g.push b m) (-β) (-α))
    let best' := max best s
    let α' := max α s
    if β ≤ α' then best' else pureLoop g b β rec ms best' α'

/-- ChessEngine._alpha_beta with the transposition table disabled: no probe,
no store, unlimited deadline (so the periodic abort branch is unreachable),
ordering computed from empty killer and history tables.  This is the
pruning search the spec's alpha-beta-equivalence property compares against
the exhaustive full-width search. -/
def alphaBetaPure {B : Type} (g : Game B) (cfg : EngineCfg) :
    Nat → B → Int → Int → Int
  | d, b, α, β =>
    if g.isCheckmate b then -MATE_SCORE + (g.ply b : Int)
    else if g.isStalemate b || g.isInsufficientMaterial b || g.canClaimDraw b then 0
    else
      match d with
      | 0 =>
        if cfg.useQuiescence then (quiescence g cfg.quiescenceDepth 0 b α β).1
        else g.evaluate b
      | e + 1 =>
        pureLoop g b β (alphaBetaPure g cfg e)
          (orderMoves g (fun _ => (none, none)) (fun _ => 0) b (e + 1) none)
          (-MATE_SCORE) α

/-- Operations on one `TranspositionTable` instance after construction. -/
inductive TTOp (B : Type) where
  | doStore (b : B) (depth : Nat) (score : Int) (nt : NodeType) (bm : Option Move')
  | doProbe (b : B)
  | doNewSearch
  | doClear

/-- Effect of one table operation on the table state (`probe` reads only). -/
def applyTTOp {B : Type} (hp : B → Nat) (tt : TranspositionTable) :
    TTOp B → TranspositionTable
  | TTOp.doStore b d s nt bm => TranspositionTable.store hp tt b d s nt bm
  | TTOp.doProbe _ => tt
  | TTOp.doNewSearch => TranspositionTable.newSearch tt
  | TTOp.doClear => TranspositionTable.clear tt

lemma lookupIdx_eq_none_iff {V : Type} (t : List (Nat × V)) (k : Nat) :
    lookupIdx t k = none ↔ k ∉ t.map Prod.fst := by
  induction t with
  | nil => simp [lookupIdx]
  | cons p ps ih =>
    by_cases h : p.1 = k
    · simp [lookupIdx, h]
    · simp [lookupIdx, h, ih, Ne.symm h]

lemma dictSet_keys_of_isSome {V : Type} (t : List (Nat × V)) (k : Nat) (v : V)
    (h : (lookupIdx t k).isSome) :
    (dictSet t k v).map Prod.fst = t.map Prod.fst := by
  unfold dictSet
  rw [if_pos h, List.map_map]
  apply List.map_congr_left
  intro p _
  by_cases hp : p.1 = k <;> simp [hp]

lemma dictSet_keys_of_none {V : Type} (t : List (Nat × V)) (k : Nat) (v : V)
    (h : lookupIdx t k = none) :
    (dictSet t k v).map Prod.fst = k :: t.map Prod.fst := by
  unfold dictSet
  rw [h]
  simp

/-- Key-set sanity for one transposition table: no duplicate slot indices and
every slot index below the capacity. -/
def TTKeysOk (tt : TranspositionTable) : Prop :=
  (tt.table.map Prod.fst).Nodup ∧
  (∀ k ∈ tt.table.map Prod.fst, k < tt.maxEntries) ∧ 0 < tt.maxEntries

lemma ttKeysOk_set (tt : TranspositionTable) (e : TTEntry) (k : Nat)
    (hk : k < tt.maxEntries) (h : TTKeysOk tt) :
    TTKeysOk ⟨tt.maxEntries, dictSet tt.table k e, tt.age⟩ := by
  obtain ⟨hnd, hlt, hpos⟩ := h
  rcases hsome : lookupIdx tt.table k with _ | e'
  · refine ⟨?_, ?_, hpos⟩
    · rw [dictSet_keys_of_none _ _ _ hsome]
      exact List.Nodup.cons ((lookupIdx_eq_none_iff _ _).mp hsome) hnd
    · rw [dictSet_keys_of_none _ _ _ hsome]
      intro x hx
      rcases hx with _ | hx
      · exact hk
      · exact hlt _ (by assumption)
  · have hs : (lookupIdx tt.table k).isSome := by rw [hsome]; rfl
    exact ⟨by rw [dictSet_keys_of_isSome _ _ _ hs]; exact hnd,
      by rw [dictSet_keys_of_isSome _ _ _ hs]; exact hlt, hpos⟩

lemma ttKeysOk_store {B : Type} (hp : B → Nat) (tt : TranspositionTable)
    (b : B) (d : Nat) (s : Int) (nt : NodeType) (bm : Option Move')
    (h : TTKeysOk tt) : TTKeysOk (TranspositionTable.store hp tt b d s nt bm) := by
  have hidx : hp b % tt.maxEntries < tt.maxEntries := Nat.mod_lt _ h.2.2
  simp only [TranspositionTable.store]
  rcases hsome : lookupIdx tt.table (hp b % tt.maxEntries) with _ | e
  · simp only [hsome]
    exact ttKeysOk_set tt _ _ hidx h
  · simp only [hsome]
    by_cases hc : e.hash_key ≠ hp b ∨ e.depth ≤ d
    · rw [if_pos hc]
      exact ttKeysOk_set tt _ _ hidx h
    · rw [if_neg hc]
      exact h

lemma ttKeysOk_apply {B : Type} (hp : B → Nat) (tt : TranspositionTable)
    (op : TTOp B) (h : TTKeysOk tt) : TTKeysOk (applyTTOp hp tt op) := by
  cases op with
  | doStore b d s nt bm => exact ttKeysOk_store hp tt b d s nt bm h
  | doProbe b => exact h
  | doNewSearch => exact h
  | doClear =>
    obtain ⟨_, _, hpos⟩ := h
    exact ⟨List.nodup_nil, by simp [applyTTOp, TranspositionTable.clear], hpos⟩

lemma maxEntries_apply {B : Type} (hp : B → Nat) (tt : TranspositionTable)
    (op : TTOp B) : (applyTTOp hp tt op).maxEntries = tt.maxEntries := by
  cases op with
  | doStore b d s nt bm =>
    simp only [applyTTOp, TranspositionTable.store]
    rcases hsome : lookupIdx tt.table (hp b % tt.maxEntries) with _ | e
    · simp only [hsome]
    · simp only [hsome]
      split <;> rfl
  | doProbe b => rfl
  | doNewSearch => rfl
  | doClear => rfl

lemma length_le_of_nodup_lt (l : List Nat) (n : Nat) (hnd : l.Nodup)
    (hlt : ∀ k ∈ l, k < n) : l.length ≤ n := by
  have hcard : l.toFinset.card = l.length := List.toFinset_card_of_nodup hnd
  have hsub : l.toFinset ⊆ Finset.range n := by
    intro k hk
    rw [List.mem_toFinset] at hk
    exact Finset.mem_range.mpr (hlt k hk)
  calc l.length = l.toFinset.card := hcard.symm
    _ ≤ (Finset.range n).card := Finset.card_le_card hsub
    _ = n := Finset.card_range n

/-- C10: no sequence of `store` / `probe` / `new_search` / `clear` operations
on a freshly constructed table can make it hold more than `max_entries`
entries: every store writes at slot `hash % max_entries`, so the slot
indices stay distinct naturals below the capacity fixed at construction. -/
theorem tt_size_bounded {B : Type} (hp : B → Nat) (sizeMB : Nat)
    (hsz : 1 ≤ sizeMB) (ops : List (TTOp B)) :
    (ops.foldl (applyTTOp hp) (TranspositionTable.init sizeMB)).table.length
      ≤ sizeMB * 1024 * 1024 / 64 := by
  suffices h : ∀ (tt : TranspositionTable), TTKeysOk tt →
      TTKeysOk (ops.foldl (applyTTOp hp) tt) ∧
      (ops.foldl (applyTTOp hp) tt).maxEntries = tt.maxEntries by
    have hinit : TTKeysOk (TranspositionTable.init sizeMB) := by
      refine ⟨List.nodup_nil, by simp [TranspositionTable.init], ?_⟩
      show 0 < sizeMB * 1024 * 1024 / 64
      omega
    obtain ⟨⟨hnd, hlt, _⟩, hmax⟩ := h _ hinit
    have hlen := length_le_of_nodup_lt _ _ hnd hlt
    rw [List.length_map] at hlen
    rw [hmax] at hlen
    exact hlen
  induction ops with
  | nil => intro tt h; exact ⟨h, rfl⟩
  | cons op ops ih =>
    intro tt h
    obtain ⟨h1, h2⟩ := ih (applyTTOp hp tt op) (ttKeysOk_apply hp tt op h)
    exact ⟨h1, by rw [List.foldl_cons, h2, maxEntries_apply]⟩

/-- Closed instance of `tt_size_bounded`: one store followed by a probe, a
new search and a clear on a 1 MB table. -/
theorem tt_size_bounded_witness :
    (([TTOp.doStore (3 : Nat) 2 15 NodeType.EXACT none, TTOp.doProbe 3,
       TTOp.doNewSearch, TTOp.doClear] : List (TTOp Nat)).foldl
        (applyTTOp (fun n => n)) (TranspositionTable.init 1)).table.length
      ≤ 1 * 1024 * 1024 / 64 :=
  tt_size_bounded (fun n => n) 1 (by decide) _

/-- C1: `TranspositionTable.probe` serves a stored entry only when the
entry's `hash_key` equals the queried position's hash; when the slot at
`hash % max_entries` holds an entry with a different `hash_key` (an index
collision between distinct positions) the probe returns `None`. -/
theorem probe_requires_hash_match {B : Type} (hp : B → Nat)
    (tt : TranspositionTable) (b : B) :
    (∀ e, TranspositionTable.probe hp tt b = some e → e.hash_key = hp b) ∧
    (∀ e, lookupIdx tt.table (hp b % tt.maxEntries) = some e →
      e.hash_key ≠ hp b → TranspositionTable.probe hp tt b = none) := by
  constructor
  · intro e he
    simp only [TranspositionTable.probe] at he
    rcases hs : lookupIdx tt.table (hp b % tt.maxEntries) with _ | e'
    · rw [hs] at he; exact absurd he (by simp)
    · rw [hs] at he
      dsimp only at he
      by_cases hk : e'.hash_key = hp b
      · rw [if_pos hk] at he
        cases he
        exact hk
      · rw [if_neg hk] at he
        exact absurd he (by simp)
  · intro e he hk
    simp only [TranspositionTable.probe]
    rw [he]
    exact if_neg hk

/-- Concrete slot collision: capacity 4, the slot 1 entry was stored for a
position of hash 5, the queried position hashes to 9 (same slot 1); the
probe returns `None`, and a query hashing to 5 gets the entry back with the
matching key. -/
theorem probe_requires_hash_match_witness :
    TranspositionTable.probe (fun n : Nat => n)
      ⟨4, [(1, ⟨5, 2, 7, NodeType.EXACT, none, 0⟩)], 0⟩ 9 = none ∧
    (⟨5, 2, 7, NodeType.EXACT, none, 0⟩ : TTEntry).hash_key = 5 := by
  constructor
  · exact (probe_requires_hash_match (fun n : Nat => n)
      ⟨4, [(1, ⟨5, 2, 7, NodeType.EXACT, none, 0⟩)], 0⟩ 9).2
      ⟨5, 2, 7, NodeType.EXACT, none, 0⟩ (by decide) (by decide)
  · exact (probe_requires_hash_match (fun n : Nat => n)
      ⟨4, [(1, ⟨5, 2, 7, NodeType.EXACT, none, 0⟩)], 0⟩ 5).1
      ⟨5, 2, 7, NodeType.EXACT, none, 0⟩ (by decide)

/-- Engine state with an accumulated history weight, as left behind by a
search in which the quiet move a1b1 raised alpha at depth 2 plus once more
at depth 1. -/
def stWithHistory : EngineSt :=
  { nodes := 0, clock := 0, ttHits := 0, tt := TranspositionTable.init 1,
    killers := fun _ => (none, none),
    history := fun k => if k = (0, 1) then 5 else 0 }

/-- C4 counterexample: `reset()` does NOT leave the history table unchanged.
On a state whose history holds weight 5 for (from-square 0, to-square 1),
the reset state reads weight 0 there: `ChessEngine.reset` executes
`self.history.clear()`. -/
theorem reset_clears_history_counterexample :
    stWithHistory.history (0, 1) = 5 ∧
    (engineReset stWithHistory).history (0, 1) = 0 ∧ (5 : Int) ≠ 0 :=
  ⟨rfl, rfl, by decide⟩

/-- C4 amended: `reset()` clears all three: the transposition table (entries
and age), the killer table, and also the history table; the engine state's
other fields (statistics, capacity) are untouched. -/
theorem reset_clears_tt_killers_and_history (st : EngineSt) :
    (engineReset st).tt.table = [] ∧ (engineReset st).tt.age = 0 ∧
    (engineReset st).killers = (fun _ => (none, none)) ∧
    (engineReset st).history = (fun _ => 0) ∧
    (engineReset st).tt.maxEntries = st.tt.maxEntries ∧
    (engineReset st).nodes = st.nodes :=
  ⟨rfl, rfl, rfl, rfl, rfl, rfl⟩

/-- Single-position game with a static evaluation of 50, used to exercise
the quiescence stand-pat logic. -/
def standPatGame : Game Nat :=
  { legalMoves := fun _ => []
    push := fun b _ => b
    isCheckmate := fun _ => false
    isStalemate := fun _ => false
    isInsufficientMaterial := fun _ => false
    canClaimDraw := fun _ => false
    isCapture := fun _ _ => false
    pieceTypeAt := fun _ _ => none
    ply := fun _ => 1
    evaluate := fun _ => 50
    hashPosition := fun b => b }

/-- C6 counterexample: a quiescence call at exhausted remaining depth with
stand-pat 50 ≥ beta 10 returns the stand-pat 50, not beta: the source tests
`depth <= 0` before the beta cutoff. -/
theorem quiescence_stand_pat_counterexample :
    (10 : Int) ≤ standPatGame.evaluate 0 ∧
    (quiescence standPatGame 0 0 0 0 10).1 = 50 ∧ (50 : Int) ≠ 10 :=
  ⟨by decide, rfl, by decide⟩

/-- C6 amended: the depth-exhaustion test precedes the beta cutoff in
`ChessEngine._quiescence`: at remaining depth 0 the call returns the
stand-pat evaluation unconditionally (even when it is ≥ beta); only at
positive remaining depth does stand-pat ≥ beta return beta immediately. -/
theorem quiescence_stand_pat {B : Type} (g : Game B) (n : Nat) (b : B)
    (α β : Int) :
    (quiescence g 0 n b α β).1 = g.evaluate b ∧
    (∀ d, β ≤ g.evaluate b → (quiescence g (d + 1) n b α β).1 = β) := by
  constructor
  · rfl
  · intro d hβ
    simp only [quiescence]
    rw [if_pos hβ]

/-- Closed instance of `quiescence_stand_pat` at the concrete game. -/
theorem quiescence_stand_pat_witness :
    (quiescence standPatGame 0 0 0 0 10).1 = standPatGame.evaluate 0 ∧
    (quiescence standPatGame 3 0 0 0 10).1 = 10 :=
  ⟨(quiescence_stand_pat standPatGame 0 0 0 10).1,
   (quiescence_stand_pat standPatGame 0 0 0 10).2 2 (by decide)⟩

lemma insertDesc_perm (x : Int × Move') (l : List (Int × Move')) :
    (insertDesc x l).Perm (x :: l) := by
  induction l with
  | nil => exact List.Perm.refl _
  | cons y ys ih =>
    simp only [insertDesc]
    by_cases h : y.1 ≤ x.1
    · rw [if_pos h]
    · rw [if_neg h]
      exact (ih.cons y).trans (List.Perm.swap x y ys)

lemma sortDesc_perm (l : List (Int × Move')) : (sortDesc l).Perm l := by
  induction l with
  | nil => exact List.Perm.refl _
  | cons x xs ih =>
    exact (insertDesc_perm x (sortDesc xs)).trans (ih.cons x)

lemma map_snd_pair {α : Type} (s : α → Int) (L : List α) :
    List.map Prod.snd (L.map (fun m => (s m, m))) = L := by
  induction L with
  | nil => rfl
  | cons x xs ih => simp only [List.map_cons, ih]

lemma orderMoves_perm {B : Type} (g : Game B)
    (killers : Nat → Option Move' × Option Move') (history : Nat × Nat → Int)
    (b : B) (depth : Nat) (hashMove : Option Move') :
    (orderMoves g killers history b depth hashMove).Perm (g.legalMoves b) := by
  unfold orderMoves
  have h := (sortDesc_perm ((g.legalMoves b).map
    (fun m => (moveScore g killers history b depth hashMove m, m)))).map Prod.snd
  rwa [map_snd_pair] at h

lemma getCaptures_perm {B : Type} (g : Game B) (b : B) :
    (getCaptures g b).Perm ((g.legalMoves b).filter (g.isCapture b)) := by
  unfold getCaptures
  have h := (sortDesc_perm (((g.legalMoves b).filter (g.isCapture b)).map
    (fun m => (match g.pieceTypeAt b m.to_sq, g.pieceTypeAt b m.from_sq with
       | some victim, some attacker => (victim : Int) * 100 - (attacker : Int)
       | _, _ => 0, m)))).map Prod.snd
  rwa [map_snd_pair] at h

/-- C9: `_order_moves` returns a permutation of the board's legal moves, for
every board, depth, hash move and contents of the killer and history tables:
ordering never drops, duplicates or invents a move. -/
theorem orderMoves_is_permutation {B : Type} (g : Game B)
    (killers : Nat → Option Move' × Option Move') (history : Nat × Nat → Int)
    (b : B) (depth : Nat) (hashMove : Option Move') :
    (orderMoves g killers history b depth hashMove).Perm (g.legalMoves b) :=
  orderMoves_perm g killers history b depth hashMove

/-- Deadline oracle of an unlimited time budget: `_time_up` never fires. -/
def oracleNever : Nat → Bool := fun _ => false

/-- Engine configuration used by the concrete runs: maximum depth 5,
quiescence off, quiescence depth 8, 256 MB table. -/
def cfgNoQ : EngineCfg := ⟨5, false, 8, 256⟩

lemma abPrelude_checkmate {B : Type} (g : Game B) (o : Nat → Bool) (d : Nat)
    (b : B) (α β : Int) (st : EngineSt)
    (k : Int → Int → Option TTEntry → EngineSt → Int × EngineSt)
    (hm : g.isCheckmate b = true)
    (ht : (st.nodes + 1) % 4096 ≠ 0 ∨ o st.clock = false) :
    (abPrelude g o d b α β st k).1 = -MATE_SCORE + (g.ply b : Int) := by
  simp only [abPrelude]
  by_cases h4 : (st.nodes + 1) % 4096 = 0
  · rcases ht with ht | ht
    · exact absurd h4 ht
    · simp [h4, timeUpCall, ht, hm, abCore]
  · simp [h4, hm, abCore]

lemma alphaBeta_checkmate_eq {B : Type} (g : Game B) (o : Nat → Bool)
    (cfg : EngineCfg) (d : Nat) (b : B) (α β : Int) (st : EngineSt)
    (hm : g.isCheckmate b = true)
    (ht : (st.nodes + 1) % 4096 ≠ 0 ∨ o st.clock = false) :
    (alphaBeta g o cfg d b α β st).1 = -MATE_SCORE + (g.ply b : Int) := by
  cases d with
  | zero => exact abPrelude_checkmate g o 0 b α β st _ hm ht
  | succ e => exact abPrelude_checkmate g o (e + 1) b α β st _ hm ht

/-- C5 amended: at a node where the side to move is checkmated (and the
periodic deadline check does not fire), `_alpha_beta` returns exactly
`-MATE_SCORE + board.ply()`, where `ply()` counts half-moves from the start
of the game (the board's move counters), not from the root of the search;
consequently among two checkmates the one at the smaller game ply still
receives the strictly smaller (better for the mating side once negated)
score. -/
theorem alphaBeta_mate_score {B : Type} (g : Game B) (o : Nat → Bool)
    (cfg : EngineCfg) (d₁ d₂ : Nat) (b₁ b₂ : B) (α₁ β₁ α₂ β₂ : Int)
    (st₁ st₂ : EngineSt)
    (hm₁ : g.isCheckmate b₁ = true)
    (ht₁ : (st₁.nodes + 1) % 4096 ≠ 0 ∨ o st₁.clock = false)
    (hm₂ : g.isCheckmate b₂ = true)
    (ht₂ : (st₂.nodes + 1) % 4096 ≠ 0 ∨ o st₂.clock = false) :
    (alphaBeta g o cfg d₁ b₁ α₁ β₁ st₁).1 = -MATE_SCORE + (g.ply b₁ : Int) ∧
    (alphaBeta g o cfg d₂ b₂ α₂ β₂ st₂).1 = -MATE_SCORE + (g.ply b₂ : Int) ∧
    (g.ply b₁ < g.ply b₂ →
      (alphaBeta g o cfg d₁ b₁ α₁ β₁ st₁).1 < (alphaBeta g o cfg d₂ b₂ α₂ β₂ st₂).1) := by
  have h₁ := alphaBeta_checkmate_eq g o cfg d₁ b₁ α₁ β₁ st₁ hm₁ ht₁
  have h₂ := alphaBeta_checkmate_eq g o cfg d₂ b₂ α₂ β₂ st₂ hm₂ ht₂
  refine ⟨h₁, h₂, fun hp => ?_⟩
  rw [h₁, h₂]
  have : (g.ply b₁ : Int) < (g.ply b₂ : Int) := by exact_mod_cast hp
  omega

/-- Game with a single root (position 0, game ply 2) whose only legal move
reaches the checkmated position 1 (game ply 3): the mate node is exactly one
ply from the search root. -/
def mateGame : Game Nat :=
  { legalMoves := fun b => if b = 0 then [⟨8, 16, none⟩] else []
    push := fun b m => if b = 0 ∧ m = ⟨8, 16, none⟩ then 1 else b
    isCheckmate := fun b => b = 1
    isStalemate := fun _ => false
    isInsufficientMaterial := fun _ => false
    canClaimDraw := fun _ => false
    isCapture := fun _ _ => false
    pieceTypeAt := fun _ _ => none
    ply := fun b => if b = 1 then 3 else 2
    evaluate := fun _ => 0
    hashPosition := fun b => b }

/-- C5 counterexample: the checkmated node `1` of `mateGame` sits one ply
below the root `0` (it is the board after the root's only legal move), yet
`_alpha_beta` returns `-MATE_SCORE + 3` there — the board's game ply — and
not `-MATE_SCORE + 1` as the ply-from-root reading of the claim predicts:
the root position already carries game ply 2. -/
theorem alphaBeta_mate_score_counterexample :
    mateGame.push 0 ⟨8, 16, none⟩ = 1 ∧ mateGame.ply 0 = 2 ∧
    (alphaBeta mateGame oracleNever cfgNoQ 1 1 (-100000) 100000
      (engineInit cfgNoQ)).1 = -100000 + 3 ∧
    (-100000 + 3 : Int) ≠ -100000 + 1 :=
  ⟨by decide, by decide, by decide, by decide⟩

/-- Closed instance of `alphaBeta_mate_score` on `mateGame` (both mate nodes
taken as position 1; the strict comparison clause is vacuous there). -/
theorem alphaBeta_mate_score_witness :
    (alphaBeta mateGame oracleNever cfgNoQ 1 1 (-100000) 100000
      (engineInit cfgNoQ)).1 = -MATE_SCORE + (mateGame.ply 1 : Int) :=
  (alphaBeta_mate_score mateGame oracleNever cfgNoQ 1 1 1 1 (-100000) 100000
    (-100000) 100000 (engineInit cfgNoQ) (engineInit cfgNoQ)
    (by decide) (Or.inl (by decide)) (by decide) (Or.inl (by decide))).1

/-- Chess position "4k3/p7/8/8/P7/8/8/4K3 w - - 0 1" (White Ke1 Pa4, Black
Ke8 Pa7, White to move) presented through the rules-engine accessors: board
`false` is the position (6 legal moves), board `true` is the position after
a null move (Black to move, 7 legal moves, not in check); no terminal flag
holds. -/
def ctx7 : EvalCtx Bool :=
  { pieceAt := fun _ sq =>
      if sq = 4 then some ⟨6, true⟩
      else if sq = 24 then some ⟨1, true⟩
      else if sq = 60 then some ⟨6, false⟩
      else if sq = 48 then some ⟨1, false⟩
      else none
    turn := fun a => a = false
    isCheckmate := fun _ => false
    isStalemate := fun _ => false
    isInsufficientMaterial := fun _ => false
    canClaimDraw := fun _ => false
    legalMoveCount := fun a => if a then 7 else 6
    isCheck := fun _ => false
    pushNullBoard := fun _ => true }

/-- Board state for `ctx7` with an empty move stack. -/
def mb7 : MBoard Bool := ⟨false, []⟩

/-- C7: on the non-terminal position "4k3/p7/8/8/P7/8/8/4K3 w - - 0 1" the
value computed by `Evaluator.evaluate` is -5/2 centipawns — not an integer:
the weighted sum of the integer sub-scores (position -5 at weight 0.3,
mobility -10 at weight 0.1, material and pawn structure 0) is returned with
no truncation or rounding, contradicting the source's own `-> int`
annotation and docstring. -/
theorem evaluate_returns_non_integer :
    evaluateQ defaultWeights ctx7 mb7 = -5 / 2 ∧
    ∀ n : ℤ, (n : ℚ) ≠ evaluateQ defaultWeights ctx7 mb7 := by
  have hmat : evaluateMaterial ctx7 mb7.cur = 0 := by decide
  have hpos : evaluatePiecePositions ctx7 mb7.cur = -5 := by decide
  have hps : evaluatePawnStructure ctx7 mb7.cur = 0 := by decide
  have hend : isEndgame ctx7 mb7.cur = true := by decide
  have hmob : evaluateMobilityM ctx7 mb7 = (-10, mb7) := rfl
  have hc1 : ctx7.isCheckmate mb7.cur = false := rfl
  have hc2 : ctx7.isStalemate mb7.cur = false := rfl
  have hc3 : ctx7.isInsufficientMaterial mb7.cur = false := rfl
  have hc4 : ctx7.canClaimDraw mb7.cur = false := rfl
  have hturn : ctx7.turn mb7.cur = true := rfl
  have heval : evaluateQ defaultWeights ctx7 mb7 = -5 / 2 := by
    simp only [evaluateQ, evaluateM, hmob, hc1, hc2, hc3, hc4, Bool.or_self,
      Bool.false_eq_true, if_false, hturn, if_true]
    simp only [hmat, hpos, hps, hend, hturn, if_true, defaultWeights]
    norm_num
  refine ⟨heval, fun n h => ?_⟩
  rw [heval] at h
  have h2 : (n : ℚ) * 2 = -5 := by rw [h]; norm_num
  have h3 : n * 2 = -5 := by exact_mod_cast h2
  omega

lemma evaluateM_state {A : Type} (w : EvalWeights) (ctx : EvalCtx A)
    (mb : MBoard A) : (evaluateM w ctx mb).2 = mb := by
  obtain ⟨c, s⟩ := mb
  simp only [evaluateM, evaluateMobilityM, MBoard.pushNull, MBoard.pop]
  split_ifs <;> rfl

/-- C8: `Evaluator.evaluate` is pure at its interface: for every board the
call leaves the board exactly as it was (the internal null-move push is
popped on the only path that performs it), and evaluating the restored
board again returns the same value. -/
theorem evaluate_is_pure {A : Type} (w : EvalWeights) (ctx : EvalCtx A)
    (mb : MBoard A) :
    (evaluateM w ctx mb).2 = mb ∧
    (evaluateM w ctx ((evaluateM w ctx mb).2)).1 = (evaluateM w ctx mb).1 :=
  ⟨evaluateM_state w ctx mb, by rw [evaluateM_state]⟩

lemma init_le_foldlMax {α : Type} (f : α → Int) (L : List α) (i : Int) :
    i ≤ L.foldl (fun a m => max a (f m)) i := by
  induction L generalizing i with
  | nil => exact le_refl i
  | cons x xs ih => exact le_trans (le_max_left i (f x)) (ih (max i (f x)))

lemma foldlMax_le_iff {α : Type} (f : α → Int) (L : List α) (i c : Int) :
    L.foldl (fun a m => max a (f m)) i ≤ c ↔ i ≤ c ∧ ∀ m ∈ L, f m ≤ c := by
  induction L generalizing i with
  | nil => simp
  | cons x xs ih =>
    rw [List.foldl_cons, ih]
    simp only [max_le_iff, List.mem_cons]
    constructor
    · rintro ⟨⟨h1, h2⟩, h3⟩
      exact ⟨h1, fun m hm => by rcases hm with rfl | hm; exact h2; exact h3 m hm⟩
    · rintro ⟨h1, h2⟩
      exact ⟨⟨h1, h2 x (Or.inl rfl)⟩, fun m hm => h2 m (Or.inr hm)⟩

lemma le_foldlMax_iff {α : Type} (f : α → Int) (L : List α) (i c : Int) :
    c ≤ L.foldl (fun a m => max a (f m)) i ↔ c ≤ i ∨ ∃ m ∈ L, c ≤ f m := by
  induction L generalizing i with
  | nil => simp
  | cons x xs ih =>
    rw [List.foldl_cons, ih]
    simp only [le_max_iff, List.mem_cons]
    constructor
    · rintro (⟨h | h⟩ | ⟨m, hm, h⟩)
      · exact Or.inl h
      · exact Or.inr ⟨x, Or.inl rfl, h⟩
      · exact Or.inr ⟨m, Or.inr hm, h⟩
    · rintro (h | ⟨m, rfl | hm, h⟩)
      · exact Or.inl (Or.inl h)
      · exact Or.inl (Or.inr h)
      · exact Or.inr ⟨m, hm, h⟩

lemma foldlMax_max {α : Type} (f : α → Int) (L : List α) (i j : Int) :
    L.foldl (fun a m => max a (f m)) (max i j)
      = max i (L.foldl (fun a m => max a (f m)) j) := by
  induction L generalizing j with
  | nil => rfl
  | cons x xs ih =>
    rw [List.foldl_cons, List.foldl_cons, max_assoc, ih]

lemma foldlMax_perm {α : Type} (f : α → Int) {L₁ L₂ : List α} (p : L₁.Perm L₂) :
    ∀ i, L₁.foldl (fun a m => max a (f m)) i = L₂.foldl (fun a m => max a (f m)) i := by
  induction p with
  | nil => intro i; rfl
  | cons x _ ih => intro i; rw [List.foldl_cons, List.foldl_cons, ih]
  | swap x y l =>
    intro i
    rw [List.foldl_cons, List.foldl_cons, List.foldl_cons, List.foldl_cons,
      sup_right_comm]
  | trans _ _ ih1 ih2 => intro i; rw [ih1, ih2]

/-- Window-relative approximation: the value `r` computed inside the window
`(α, β)` determines the true value `v` exactly when it lands strictly inside
the window, and agrees with `v` about falling at-or-below `α` and
at-or-above `β` (satisfied by both fail-hard and fail-soft alpha-beta). -/
def approx (α β v r : Int) : Prop :=
  (r ≤ α ↔ v ≤ α) ∧ (β ≤ r ↔ β ≤ v) ∧ (α < r → r < β → r = v)

lemma qsList_spec {B : Type} (g : Game B) (d : Nat) (b : B) (β : Int)
    (hIH : ∀ (n : Nat) (b' : B) (α' β' : Int), -MATE_SCORE ≤ α' → α' < β' →
      β' ≤ MATE_SCORE →
      approx α' β' (negaQVal g d b') (quiescence g d n b' α' β').1)
    (hβM : β ≤ MATE_SCORE) :
    ∀ (L : List Move') (αc : Int) (n : Nat), -MATE_SCORE ≤ αc → αc < β →
      ((β ≤ (qsList g β (quiescence g d) b L αc n).1 ↔
        β ≤ L.foldl (fun a m => max a (-(negaQVal g d (g.push b m)))) αc) ∧
       ((qsList g β (quiescence g d) b L αc n).1 < β →
        (qsList g β (quiescence g d) b L αc n).1 =
          L.foldl (fun a m => max a (-(negaQVal g d (g.push b m)))) αc)) := by
  intro L
  induction L with
  | nil =>
    intro αc n hα hαβ
    exact ⟨Iff.rfl, fun _ => rfl⟩
  | cons m ms ih =>
    intro αc n hα hαβ
    simp only [qsList, List.foldl_cons]
    obtain ⟨hch1, hch2, hch3⟩ :=
      hIH n (g.push b m) (-β) (-αc) (by linarith) (by linarith) (by linarith)
    by_cases hcut : β ≤ -(quiescence g d n (g.push b m) (-β) (-αc)).1
    · rw [if_pos hcut]
      have hvc : β ≤ -(negaQVal g d (g.push b m)) := by
        have h0 : (quiescence g d n (g.push b m) (-β) (-αc)).1 ≤ -β := by linarith
        have := hch1.mp h0
        linarith
      have hw : β ≤ ms.foldl (fun a mm => max a (-(negaQVal g d (g.push b mm))))
          (max αc (-(negaQVal g d (g.push b m)))) :=
        le_trans (le_trans hvc (le_max_right _ _)) (init_le_foldlMax _ _ _)
      exact ⟨iff_of_true le_rfl hw, fun h => absurd h (lt_irrefl β)⟩
    · rw [if_neg hcut]
      push_neg at hcut
      by_cases hsa : -(quiescence g d n (g.push b m) (-β) (-αc)).1 ≤ αc
      · have hveq : -(negaQVal g d (g.push b m)) ≤ αc := by
          have h0 : -αc ≤ (quiescence g d n (g.push b m) (-β) (-αc)).1 := by linarith
          have := hch2.mp h0
          linarith
        rw [max_eq_left hsa, max_eq_left hveq]
        exact ih αc _ hα hαβ
      · push_neg at hsa
        have hveq : (quiescence g d n (g.push b m) (-β) (-αc)).1
            = negaQVal g d (g.push b m) := hch3 (by linarith) (by linarith)
        rw [hveq]
        exact ih _ _ (le_trans hα (le_max_left _ _))
          (max_lt hαβ (by rw [hveq] at hcut; linarith))

lemma quiescence_approx {B : Type} (g : Game B) :
    ∀ (d n : Nat) (b : B) (α β : Int),
      -MATE_SCORE ≤ α → α < β → β ≤ MATE_SCORE →
      approx α β (negaQVal g d b) (quiescence g d n b α β).1 := by
  intro d
  induction d with
  | zero =>
    intro n b α β _ _ _
    exact ⟨Iff.rfl, Iff.rfl, fun _ _ => rfl⟩
  | succ d ihd =>
    intro n b α β h1 h2 h3
    simp only [quiescence, negaQVal]
    by_cases hs : β ≤ g.evaluate b
    · rw [if_pos hs]
      have hv : β ≤ ((g.legalMoves b).filter (g.isCapture b)).foldl
          (fun a m => max a (-(negaQVal g d (g.push b m)))) (g.evaluate b) :=
        le_trans hs (init_le_foldlMax _ _ _)
      exact ⟨iff_of_false (not_le.mpr h2) (fun h => absurd (le_trans hv h) (not_le.mpr h2)),
        iff_of_true le_rfl hv, fun _ hrβ => absurd hrβ (lt_irrefl β)⟩
    · rw [if_neg hs]
      push_neg at hs
      obtain ⟨hA, hB⟩ := qsList_spec g d b β (fun n' b' α' β' => ihd n' b' α' β') h3
        (getCaptures g b) (max α (g.evaluate b)) (n + 1)
        (le_trans h1 (le_max_left _ _)) (max_lt h2 hs)
      have hperm : (getCaptures g b).foldl
            (fun a m => max a (-(negaQVal g d (g.push b m)))) (max α (g.evaluate b))
          = ((g.legalMoves b).filter (g.isCapture b)).foldl
            (fun a m => max a (-(negaQVal g d (g.push b m)))) (max α (g.evaluate b)) :=
        foldlMax_perm _ (getCaptures_perm g b) _
      have hsplit : ((g.legalMoves b).filter (g.isCapture b)).foldl
            (fun a m => max a (-(negaQVal g d (g.push b m)))) (max α (g.evaluate b))
          = max α (((g.legalMoves b).filter (g.isCapture b)).foldl
            (fun a m => max a (-(negaQVal g d (g.push b m)))) (g.evaluate b)) :=
        foldlMax_max _ _ _ _
      rw [hperm, hsplit] at hA hB
      set r := (qsList g β (quiescence g d) b (getCaptures g b)
        (max α (g.evaluate b)) (n + 1)).1 with hrdef
      set F := ((g.legalMoves b).filter (g.isCapture b)).foldl
        (fun a m => max a (-(negaQVal g d (g.push b m)))) (g.evaluate b) with hFdef
      refine ⟨?_, ?_, ?_⟩
      · constructor
        · intro hr
          have heq := hB (lt_of_le_of_lt hr h2)
          rw [heq] at hr
          exact le_of_max_le_right hr
        · intro hv
          have hmax : max α F = α := max_eq_left hv
          have hrβ : r < β := by
            by_contra hc
            push_neg at hc
            have := hA.mp hc
            rw [hmax] at this
            linarith
          rw [hB hrβ, hmax]
      · rw [hA]
        constructor
        · intro h
          rcases le_max_iff.mp h with h | h
          · linarith
          · exact h
        · intro h
          exact le_trans h (le_max_right _ _)
      · intro hαr hrβ
        have heq := hB hrβ
        rw [heq] at hαr ⊢
        rcases max_cases α F with ⟨h1, _⟩ | ⟨h1, _⟩
        · rw [h1] at hαr
          exact absurd hαr (lt_irrefl α)
        · exact h1

lemma foldlMax_absorb {α : Type} (f : α → Int) (L : List α) {i j : Int}
    (h : j ≤ i) :
    L.foldl (fun a m => max a (f m)) i
      = max i (L.foldl (fun a m => max a (f m)) j) := by
  have hx := foldlMax_max f L i j
  rwa [max_eq_left h] at hx

lemma approx_refl (α β v : Int) : approx α β v v :=
  ⟨Iff.rfl, Iff.rfl, fun _ _ => rfl⟩

lemma pureLoop_spec {B : Type} (g : Game B) (cfg : EngineCfg) (e : Nat) (b : B)
    (α β : Int)
    (hIH : ∀ (b' : B) (α' β' : Int), -MATE_SCORE ≤ α' → α' < β' →
      β' ≤ MATE_SCORE →
      approx α' β' (negamaxSpec g cfg e b') (alphaBetaPure g cfg e b' α' β'))
    (hαM : -MATE_SCORE ≤ α) (hβM : β ≤ MATE_SCORE) :
    ∀ (L : List Move') (best αc : Int), αc = max α best → αc < β →
      ((β ≤ pureLoop g b β (alphaBetaPure g cfg e) L best αc ↔
        β ≤ L.foldl (fun a m => max a (-(negamaxSpec g cfg e (g.push b m)))) best) ∧
       (pureLoop g b β (alphaBetaPure g cfg e) L best αc ≤ α ↔
        L.foldl (fun a m => max a (-(negamaxSpec g cfg e (g.push b m)))) best ≤ α) ∧
       (α < pureLoop g b β (alphaBetaPure g cfg e) L best αc →
        pureLoop g b β (alphaBetaPure g cfg e) L best αc < β →
        pureLoop g b β (alphaBetaPure g cfg e) L best αc =
          L.foldl (fun a m => max a (-(negamaxSpec g cfg e (g.push b m)))) best)) := by
  intro L
  induction L with
  | nil =>
    intro best αc _ _
    exact ⟨Iff.rfl, Iff.rfl, fun _ _ => rfl⟩
  | cons m ms ih =>
    intro best αc hinv hαβ
    have hααc : α ≤ αc := by rw [hinv]; exact le_max_left _ _
    have hαcM : -MATE_SCORE ≤ αc := le_trans hαM hααc
    obtain ⟨hc1, hc2, hc3⟩ :=
      hIH (g.push b m) (-β) (-αc) (by linarith) (by linarith) (by linarith)
    simp only [pureLoop, List.foldl_cons]
    by_cases hcut : β ≤ max αc (-(alphaBetaPure g cfg e (g.push b m) (-β) (-αc)))
    · rw [if_pos hcut]
      have hsβ : β ≤ -(alphaBetaPure g cfg e (g.push b m) (-β) (-αc)) := by
        rcases le_max_iff.mp hcut with h | h
        · linarith
        · exact h
      have hstrue : β ≤ -(negamaxSpec g cfg e (g.push b m)) := by
        have h0 : alphaBetaPure g cfg e (g.push b m) (-β) (-αc) ≤ -β := by linarith
        have := hc1.mp h0
        linarith
      have hr : β ≤ max best (-(alphaBetaPure g cfg e (g.push b m) (-β) (-αc))) :=
        le_trans hsβ (le_max_right _ _)
      have hw : β ≤ ms.foldl (fun a mm => max a (-(negamaxSpec g cfg e (g.push b mm))))
          (max best (-(negamaxSpec g cfg e (g.push b m)))) :=
        le_trans (le_trans hstrue (le_max_right _ _)) (init_le_foldlMax _ _ _)
      refine ⟨iff_of_true hr hw, iff_of_false ?_ ?_, fun _ h2 => absurd h2 (not_lt.mpr hr)⟩
      · intro h
        have : β ≤ α := le_trans hr h
        linarith
      · intro h
        have : β ≤ α := le_trans hw h
        linarith
    · rw [if_neg hcut]
      push_neg at hcut
      have hsc : -(alphaBetaPure g cfg e (g.push b m) (-β) (-αc)) < β :=
        lt_of_le_of_lt (le_max_right αc _) hcut
      by_cases hsa : -(alphaBetaPure g cfg e (g.push b m) (-β) (-αc)) ≤ αc
      · have hstrue : -(negamaxSpec g cfg e (g.push b m)) ≤ αc := by
          have h0 : -αc ≤ alphaBetaPure g cfg e (g.push b m) (-β) (-αc) := by linarith
          have := hc2.mp h0
          linarith
        rw [max_eq_left hsa]
        have hinv' : αc = max α
            (max best (-(alphaBetaPure g cfg e (g.push b m) (-β) (-αc)))) := by
          rw [← max_assoc, ← hinv]
          exact (max_eq_left hsa).symm
        obtain ⟨hA, hB, hC⟩ :=
          ih (max best (-(alphaBetaPure g cfg e (g.push b m) (-β) (-αc)))) αc hinv' hαβ
        by_cases hbest : α < best
        · have hαcb : αc = best := by
            rw [hinv]
            exact max_eq_right (le_of_lt hbest)
          have he1 : max best (-(alphaBetaPure g cfg e (g.push b m) (-β) (-αc)))
              = best := max_eq_left (hαcb ▸ hsa)
          have he2 : max best (-(negamaxSpec g cfg e (g.push b m))) = best :=
            max_eq_left (hαcb ▸ hstrue)
          rw [he1, he2]
          exact ih best αc hinv hαβ
        · push_neg at hbest
          have hαcα : αc = α := by
            rw [hinv]
            exact max_eq_left hbest
          have hi1 : max best (-(alphaBetaPure g cfg e (g.push b m) (-β) (-αc))) ≤ α :=
            max_le hbest (hαcα ▸ hsa)
          have hi2 : max best (-(negamaxSpec g cfg e (g.push b m))) ≤ α :=
            max_le hbest (hαcα ▸ hstrue)
          have hd1 := foldlMax_absorb (fun mm => -(negamaxSpec g cfg e (g.push b mm)))
            ms (le_max_left best (-(alphaBetaPure g cfg e (g.push b m) (-β) (-αc))))
          have hd2 := foldlMax_absorb (fun mm => -(negamaxSpec g cfg e (g.push b mm)))
            ms (le_max_left best (-(negamaxSpec g cfg e (g.push b m))))
          have hαβ' : α < β := lt_of_le_of_lt hααc hαβ
          refine ⟨?_, ?_, ?_⟩
          · rw [hA, hd1, hd2]
            constructor
            · intro h
              rcases le_max_iff.mp h with h | h
              · exact absurd (le_trans h hi1) (not_le.mpr hαβ')
              · exact le_trans h (le_max_right _ _)
            · intro h
              rcases le_max_iff.mp h with h | h
              · exact absurd (le_trans h hi2) (not_le.mpr hαβ')
              · exact le_trans h (le_max_right _ _)
          · rw [hB, hd1, hd2]
            simp only [max_le_iff]
            constructor
            · rintro ⟨_, h⟩
              exact ⟨max_le_iff.mp hi2, h⟩
            · rintro ⟨_, h⟩
              exact ⟨max_le_iff.mp hi1, h⟩
          · intro hαr hrβ
            have heq := hC hαr hrβ
            rw [heq] at hαr
            rw [heq, hd1, hd2]
            rw [hd1] at hαr
            have hF : α < ms.foldl (fun a mm => max a (-(negamaxSpec g cfg e (g.push b mm)))) best := by
              rcases max_cases (max best (-(alphaBetaPure g cfg e (g.push b m) (-β) (-αc))))
                (ms.foldl (fun a mm => max a (-(negamaxSpec g cfg e (g.push b mm)))) best) with
                ⟨hx, hy⟩ | ⟨hx, hy⟩
              · rw [hx] at hαr
                exact absurd hαr (not_lt.mpr hi1)
              · rw [hx] at hαr
                exact hαr
            rw [max_eq_right (le_of_lt (lt_of_le_of_lt hi1 hF)),
              max_eq_right (le_of_lt (lt_of_le_of_lt hi2 hF))]
      · push_neg at hsa
        have hveq : alphaBetaPure g cfg e (g.push b m) (-β) (-αc)
            = negamaxSpec g cfg e (g.push b m) := hc3 (by linarith) (by linarith)
        rw [hveq]
        have hinv' : max αc (-(negamaxSpec g cfg e (g.push b m)))
            = max α (max best (-(negamaxSpec g cfg e (g.push b m)))) := by
          rw [hinv, max_assoc]
        exact ih (max best (-(negamaxSpec g cfg e (g.push b m))))
          (max αc (-(negamaxSpec g cfg e (g.push b m)))) hinv' (hveq ▸ hcut)

lemma abPure_approx {B : Type} (g : Game B) (cfg : EngineCfg) :
    ∀ (d : Nat) (b : B) (α β : Int), -MATE_SCORE ≤ α → α < β → β ≤ MATE_SCORE →
      approx α β (negamaxSpec g cfg d b) (alphaBetaPure g cfg d b α β) := by
  intro d
  induction d with
  | zero =>
    intro b α β h1 h2 h3
    simp only [alphaBetaPure, negamaxSpec]
    split_ifs with hm hd hq
    · exact approx_refl _ _ _
    · exact approx_refl _ _ _
    · exact quiescence_approx g cfg.quiescenceDepth 0 b α β h1 h2 h3
    · exact approx_refl _ _ _
  | succ e ihe =>
    intro b α β h1 h2 h3
    simp only [alphaBetaPure, negamaxSpec]
    split_ifs with hm hd
    · exact approx_refl _ _ _
    · exact approx_refl _ _ _
    · obtain ⟨hA, hB, hC⟩ := pureLoop_spec g cfg e b α β
        (fun b' α' β' hh1 hh2 hh3 => ihe b' α' β' hh1 hh2 hh3) h1 h3
        (orderMoves g (fun _ => (none, none)) (fun _ => 0) b (e + 1) none)
        (-MATE_SCORE) α (max_eq_left h1).symm h2
      have hperm := foldlMax_perm (fun m => -(negamaxSpec g cfg e (g.push b m)))
        (orderMoves_perm g (fun _ => (none, none)) (fun _ => 0) b (e + 1) none)
        (-MATE_SCORE)
      rw [hperm] at hA hB hC
      exact ⟨hB, hA, hC⟩

/-- Sanity conditions the rules engine and evaluator guarantee for real
chess: static evaluations are strictly inside the mate window, game plies
are positive and far below `MATE_SCORE`, and a position with no legal moves
is checkmate or a draw. -/
def GoodGame {B : Type} (g : Game B) : Prop :=
  (∀ b, -MATE_SCORE < g.evaluate b ∧ g.evaluate b < MATE_SCORE) ∧
  (∀ b, 0 < g.ply b ∧ (g.ply b : Int) < MATE_SCORE) ∧
  (∀ b, g.legalMoves b = [] →
    g.isCheckmate b = true ∨ g.isStalemate b = true ∨
    g.isInsufficientMaterial b = true ∨ g.canClaimDraw b = true)

lemma negaQVal_bounds {B : Type} (g : Game B) (hg : GoodGame g) :
    ∀ (d : Nat) (b : B),
      -MATE_SCORE < negaQVal g d b ∧ negaQVal g d b < MATE_SCORE := by
  intro d
  induction d with
  | zero => intro b; exact (hg.1 b)
  | succ d ihd =>
    intro b
    simp only [negaQVal]
    constructor
    · exact lt_of_lt_of_le (hg.1 b).1 (init_le_foldlMax _ _ _)
    · have h := (foldlMax_le_iff (fun m => -(negaQVal g d (g.push b m)))
        ((g.legalMoves b).filter (g.isCapture b)) (g.evaluate b)
        (MATE_SCORE - 1)).mpr
        ⟨by have := (hg.1 b).2; omega,
         fun m _ => by have := (ihd (g.push b m)).1; omega⟩
      omega

lemma negamaxSpec_bounds {B : Type} (g : Game B) (cfg : EngineCfg)
    (hg : GoodGame g) :
    ∀ (d : Nat) (b : B),
      -MATE_SCORE < negamaxSpec g cfg d b ∧ negamaxSpec g cfg d b < MATE_SCORE := by
  intro d
  induction d with
  | zero =>
    intro b
    simp only [negamaxSpec]
    split_ifs with hm hd hq
    · have := hg.2.1 b
      constructor
      · omega
      · have : (0 : Int) < MATE_SCORE := by norm_num [MATE_SCORE]
        omega
    · norm_num [MATE_SCORE]
    · exact negaQVal_bounds g hg cfg.quiescenceDepth b
    · exact hg.1 b
  | succ e ihe =>
    intro b
    simp only [negamaxSpec]
    split_ifs with hm hd
    · have := hg.2.1 b
      constructor
      · omega
      · have : (0 : Int) < MATE_SCORE := by norm_num [MATE_SCORE]
        omega
    · norm_num [MATE_SCORE]
    · have hne : g.legalMoves b ≠ [] := by
        intro hnil
        rcases hg.2.2 b hnil with h | h | h | h
        · exact hm h
        · exact hd (by simp [h])
        · exact hd (by simp [h])
        · exact hd (by simp [h])
      rcases hL : g.legalMoves b with _ | ⟨m, ms⟩
      · exact absurd hL hne
      constructor
      · have := (le_foldlMax_iff (fun mm => -(negamaxSpec g cfg e (g.push b mm)))
          (m :: ms) (-MATE_SCORE)
          (-(negamaxSpec g cfg e (g.push b m)))).mpr
          (Or.inr ⟨m, List.mem_cons_self m ms, le_refl _⟩)
        have hb := (ihe (g.push b m)).2
        omega
      · have h := (foldlMax_le_iff (fun mm => -(negamaxSpec g cfg e (g.push b mm)))
          (m :: ms) (-MATE_SCORE) (MATE_SCORE - 1)).mpr
          ⟨by norm_num [MATE_SCORE],
           fun mm _ => by have := (ihe (g.push b mm)).1; omega⟩
        omega

/-- C2 amended (positive half): with the transposition table disabled,
pruning never changes the score — for every position and fixed depth the
full-window alpha-beta search (quiescence leaves included) returns exactly
the score of the exhaustive full-width negamax of the same depth. -/
theorem alphaBetaPure_eq_negamaxSpec {B : Type} (g : Game B) (cfg : EngineCfg)
    (hg : GoodGame g) (d : Nat) (b : B) :
    alphaBetaPure g cfg d b (-MATE_SCORE) MATE_SCORE = negamaxSpec g cfg d b := by
  obtain ⟨hA, hB, hC⟩ := abPure_approx g cfg d b (-MATE_SCORE) MATE_SCORE
    (le_refl _) (by norm_num [MATE_SCORE]) (le_refl _)
  obtain ⟨hv1, hv2⟩ := negamaxSpec_bounds g cfg hg d b
  have hr1 : -MATE_SCORE < alphaBetaPure g cfg d b (-MATE_SCORE) MATE_SCORE := by
    by_contra hc
    push_neg at hc
    exact absurd (hA.mp hc) (not_le.mpr hv1)
  have hr2 : alphaBetaPure g cfg d b (-MATE_SCORE) MATE_SCORE < MATE_SCORE := by
    by_contra hc
    push_neg at hc
    exact absurd (hB.mp hc) (not_le.mpr hv2)
  exact hC hr1 hr2

/-- Game used for the closed instance of the alpha-beta equivalence:
every position has one quiet move, evaluation 0, ply 1. -/
def plainGame : Game Nat :=
  { legalMoves := fun _ => [⟨0, 1, none⟩]
    push := fun b _ => b + 1
    isCheckmate := fun _ => false
    isStalemate := fun _ => false
    isInsufficientMaterial := fun _ => false
    canClaimDraw := fun _ => false
    isCapture := fun _ _ => false
    pieceTypeAt := fun _ _ => none
    ply := fun _ => 1
    evaluate := fun _ => 0
    hashPosition := fun b => b }

/-- Closed instance of `alphaBetaPure_eq_negamaxSpec` at depth 2. -/
theorem alphaBetaPure_eq_negamaxSpec_witness :
    alphaBetaPure plainGame cfgNoQ 2 0 (-MATE_SCORE) MATE_SCORE
      = negamaxSpec plainGame cfgNoQ 2 0 :=
  alphaBetaPure_eq_negamaxSpec plainGame cfgNoQ
    ⟨fun _ => by norm_num [plainGame, MATE_SCORE],
     fun _ => by norm_num [plainGame, MATE_SCORE],
     fun _ h => absurd h (by simp [plainGame])⟩ 2 0

/-- Three-depth game graph with a transposition: position 10 is reachable
from the root 0 directly (move to 10) and below position 20 (moves
0 → 20 → 10).  Evaluations: leaf 12 scores 5, leaf 11 scores -100. -/
def graftGame : Game Nat :=
  { legalMoves := fun b =>
      if b = 0 then [⟨0, 1, none⟩, ⟨0, 2, none⟩]
      else if b = 10 then [⟨1, 3, none⟩]
      else if b = 11 then [⟨3, 5, none⟩]
      else if b = 20 then [⟨2, 4, none⟩]
      else [⟨3, 5, none⟩]
    push := fun b m =>
      if b = 0 ∧ m = ⟨0, 1, none⟩ then 10
      else if b = 0 ∧ m = ⟨0, 2, none⟩ then 20
      else if b = 10 ∧ m = ⟨1, 3, none⟩ then 11
      else if b = 11 ∧ m = ⟨3, 5, none⟩ then 12
      else if b = 20 ∧ m = ⟨2, 4, none⟩ then 10
      else 99
    isCheckmate := fun _ => false
    isStalemate := fun _ => false
    isInsufficientMaterial := fun _ => false
    canClaimDraw := fun _ => false
    isCapture := fun _ _ => false
    pieceTypeAt := fun _ _ => none
    ply := fun _ => 1
    evaluate := fun b => if b = 12 then 5 else if b = 11 then -100 else 0
    hashPosition := fun b => b }

/-- C2 counterexample: on `graftGame`, the full-window `_alpha_beta` at
depth 3 (fresh engine state, unlimited deadline, quiescence off) returns 5,
while the exhaustive full-width negamax of depth 3 returns 100.  The
transposition-table entry stored for position 10 at depth 2 is later served
when 10 is reached below 20 with only depth 1 requested, replacing the
depth-1 value of 10 (+100) by the depth-2 value (5): the table — part of
the pruning search — changes the returned score, not only the node count. -/
theorem alphaBeta_neq_negamax_counterexample :
    (alphaBeta graftGame oracleNever cfgNoQ 3 0 (-100000) 100000
      (engineInit cfgNoQ)).1 = 5 ∧
    negamaxSpec graftGame cfgNoQ 3 0 = 100 ∧ (5 : Int) ≠ 100 :=
  ⟨by decide, by decide, by decide⟩

lemma lookupIdx_map_set {V : Type} (k : Nat) (v : V) :
    ∀ (t : List (Nat × V)) (k' : Nat),
      lookupIdx (t.map (fun p => if p.1 = k then (k, v) else p)) k'
        = if k' = k then (if (lookupIdx t k).isSome then some v else none)
          else lookupIdx t k' := by
  intro t
  induction t with
  | nil => intro k'; simp [lookupIdx]
  | cons p ps ih =>
    intro k'
    by_cases hp : p.1 = k
    · simp only [List.map_cons, if_pos hp, lookupIdx, ih]
      by_cases hk : k' = k
      · subst hk
        simp [lookupIdx, hp]
      · simp [lookupIdx, hp, hk, Ne.symm hk]
    · simp only [List.map_cons, if_neg hp, lookupIdx, ih]
      by_cases hpk : p.1 = k'
      · have hk : ¬ k' = k := fun h => hp (h ▸ hpk)
        simp [lookupIdx, hpk, hk]
      · simp [lookupIdx, hpk, hp]

lemma lookupIdx_dictSet {V : Type} (t : List (Nat × V)) (k : Nat) (v : V)
    (k' : Nat) :
    lookupIdx (dictSet t k v) k' = if k' = k then some v else lookupIdx t k' := by
  unfold dictSet
  by_cases hs : (lookupIdx t k).isSome
  · rw [if_pos hs, lookupIdx_map_set, if_pos hs]
  · rw [if_neg hs]
    by_cases hk : k' = k
    · subst hk
      simp [lookupIdx]
    · simp [lookupIdx, Ne.symm hk, hk]

/-- Score sanity of every stored transposition entry: strictly inside the
mate window. -/
def TTInv (tt : TranspositionTable) : Prop :=
  ∀ k e, lookupIdx tt.table k = some e →
    -MATE_SCORE < e.score ∧ e.score < MATE_SCORE

lemma ttInv_store {B : Type} (hp : B → Nat) (tt : TranspositionTable) (b : B)
    (d : Nat) (s : Int) (nt : NodeType) (bm : Option Move') (h : TTInv tt)
    (hs : -MATE_SCORE < s ∧ s < MATE_SCORE) :
    TTInv (TranspositionTable.store hp tt b d s nt bm) := by
  have hset : TTInv ⟨tt.maxEntries,
      dictSet tt.table (hp b % tt.maxEntries) ⟨hp b, d, s, nt, bm, tt.age⟩,
      tt.age⟩ := by
    intro k e he
    simp only at he
    rw [lookupIdx_dictSet] at he
    by_cases hk : k = hp b % tt.maxEntries
    · rw [if_pos hk] at he
      cases he
      exact hs
    · rw [if_neg hk] at he
      exact h k e he
  simp only [TranspositionTable.store]
  rcases hlk : lookupIdx tt.table (hp b % tt.maxEntries) with _ | e0
  · simp only [hlk]
    exact hset
  · simp only [hlk]
    split
    · exact hset
    · exact h

lemma probe_some_lookup {B : Type} (hp : B → Nat) (tt : TranspositionTable)
    (b : B) (e : TTEntry) (h : TranspositionTable.probe hp tt b = some e) :
    lookupIdx tt.table (hp b % tt.maxEntries) = some e := by
  simp only [TranspositionTable.probe] at h
  rcases hlk : lookupIdx tt.table (hp b % tt.maxEntries) with _ | e0
  · rw [hlk] at h
    exact absurd h (by simp)
  · rw [hlk] at h
    dsimp only at h
    split_ifs at h
    cases h
    rfl

lemma qsList_bounds {B : Type} (g : Game B) (d : Nat) (b : B)
    (β : Int)
    (hIH : ∀ (n : Nat) (b' : B) (α' β' : Int), -MATE_SCORE ≤ α' → α' < β' →
      β' ≤ MATE_SCORE → -MATE_SCORE < (quiescence g d n b' α' β').1 ∧
      (quiescence g d n b' α' β').1 < MATE_SCORE)
    (hβM : β ≤ MATE_SCORE) :
    ∀ (L : List Move') (αc : Int) (n : Nat), -MATE_SCORE < αc → αc < β →
      -MATE_SCORE < (qsList g β (quiescence g d) b L αc n).1 ∧
      (qsList g β (quiescence g d) b L αc n).1 < MATE_SCORE := by
  intro L
  induction L with
  | nil =>
    intro αc n h1 h2
    exact ⟨h1, lt_of_lt_of_le h2 hβM⟩
  | cons m ms ih =>
    intro αc n h1 h2
    simp only [qsList]
    obtain ⟨hcb1, hcb2⟩ :=
      hIH n (g.push b m) (-β) (-αc) (by linarith) (by linarith) (by linarith)
    by_cases hcut : β ≤ -(quiescence g d n (g.push b m) (-β) (-αc)).1
    · rw [if_pos hcut]
      exact ⟨by linarith, by linarith⟩
    · rw [if_neg hcut]
      push_neg at hcut
      exact ih _ _ (lt_of_lt_of_le h1 (le_max_left _ _)) (max_lt h2 hcut)

lemma quiescence_bounds {B : Type} (g : Game B) (hg : GoodGame g) :
    ∀ (d n : Nat) (b : B) (α β : Int), -MATE_SCORE ≤ α → α < β →
      β ≤ MATE_SCORE → -MATE_SCORE < (quiescence g d n b α β).1 ∧
      (quiescence g d n b α β).1 < MATE_SCORE := by
  intro d
  induction d with
  | zero =>
    intro n b α β _ _ _
    exact hg.1 b
  | succ d ihd =>
    intro n b α β h1 h2 h3
    simp only [quiescence]
    by_cases hs : β ≤ g.evaluate b
    · rw [if_pos hs]
      exact ⟨by linarith, lt_of_le_of_lt hs (hg.1 b).2⟩
    · rw [if_neg hs]
      push_neg at hs
      exact qsList_bounds g d b β (fun n' b' α' β' => ihd n' b' α' β') h3
        (getCaptures g b) (max α (g.evaluate b)) (n + 1)
        (lt_of_lt_of_le (hg.1 b).1 (le_max_right _ _)) (max_lt h2 hs)

lemma storeKiller_tt (st : EngineSt) (m : Move') (depth : Nat) :
    (storeKiller st m depth).tt = st.tt := by
  unfold storeKiller
  split_ifs <;> rfl

lemma abCore_bounds {B : Type} (g : Game B) (d : Nat) (b : B) (α β : Int)
    (st2 : EngineSt)
    (k : Int → Int → Option TTEntry → EngineSt → Int × EngineSt)
    (hg : GoodGame g) (hTT : TTInv st2.tt)
    (h1 : -MATE_SCORE ≤ α) (h2 : α < β) (h3 : β ≤ MATE_SCORE)
    (hk : ∀ (α' β' : Int) (ent : Option TTEntry) (st' : EngineSt),
      TTInv st'.tt → -MATE_SCORE ≤ α' → α' < β' → β' ≤ MATE_SCORE →
      g.isCheckmate b = false →
      (g.isStalemate b || g.isInsufficientMaterial b || g.canClaimDraw b) = false →
      -MATE_SCORE < (k α' β' ent st').1 ∧ (k α' β' ent st').1 < MATE_SCORE ∧
      TTInv (k α' β' ent st').2.tt) :
    -MATE_SCORE < (abCore g d b α β st2 k).1 ∧
    (abCore g d b α β st2 k).1 < MATE_SCORE ∧
    TTInv (abCore g d b α β st2 k).2.tt := by
  have hM : (0 : Int) < MATE_SCORE := by norm_num [MATE_SCORE]
  simp only [abCore]
  split_ifs with hm hd
  · obtain ⟨hp1, hp2⟩ := hg.2.1 b
    exact ⟨by omega, by omega, hTT⟩
  · exact ⟨by omega, by omega, hTT⟩
  · have hmF : g.isCheckmate b = false := Bool.not_eq_true _ ▸ eq_false_of_ne_true hm
    have hdF : (g.isStalemate b || g.isInsufficientMaterial b || g.canClaimDraw b)
        = false := eq_false_of_ne_true hd
    rcases hpr : TranspositionTable.probe g.hashPosition st2.tt b with _ | e
    · exact hk α β none st2 hTT h1 h2 h3 hmF hdF
    · obtain ⟨he1, he2⟩ := hTT _ e (probe_some_lookup _ _ _ _ hpr)
      dsimp only
      by_cases hdep : d ≤ e.depth
      · rw [if_pos hdep]
        rcases hnt : e.node_type with _ | _ | _
        · exact ⟨he1, he2, hTT⟩
        · dsimp only
          by_cases hca : β ≤ max α e.score
          · rw [if_pos hca]
            exact ⟨he1, he2, hTT⟩
          · rw [if_neg hca]
            exact hk (max α e.score) β (some e) _ hTT
              (le_trans h1 (le_max_left _ _)) (not_le.mp hca) h3 hmF hdF
        · dsimp only
          by_cases hca : min β e.score ≤ α
          · rw [if_pos hca]
            exact ⟨he1, he2, hTT⟩
          · rw [if_neg hca]
            exact hk α (min β e.score) (some e) _ hTT h1 (not_le.mp hca)
              (le_trans (min_le_left _ _) h3) hmF hdF
      · rw [if_neg hdep]
        exact hk α β (some e) st2 hTT h1 h2 h3 hmF hdF

lemma abPrelude_bounds {B : Type} (g : Game B) (o : Nat → Bool) (d : Nat)
    (b : B) (α β : Int) (st : EngineSt)
    (k : Int → Int → Option TTEntry → EngineSt → Int × EngineSt)
    (hg : GoodGame g) (hTT : TTInv st.tt)
    (h1 : -MATE_SCORE ≤ α) (h2 : α < β) (h3 : β ≤ MATE_SCORE)
    (hk : ∀ (α' β' : Int) (ent : Option TTEntry) (st' : EngineSt),
      TTInv st'.tt → -MATE_SCORE ≤ α' → α' < β' → β' ≤ MATE_SCORE →
      g.isCheckmate b = false →
      (g.isStalemate b || g.isInsufficientMaterial b || g.canClaimDraw b) = false →
      -MATE_SCORE < (k α' β' ent st').1 ∧ (k α' β' ent st').1 < MATE_SCORE ∧
      TTInv (k α' β' ent st').2.tt) :
    -MATE_SCORE < (abPrelude g o d b α β st k).1 ∧
    (abPrelude g o d b α β st k).1 < MATE_SCORE ∧
    TTInv (abPrelude g o d b α β st k).2.tt := by
  have hM : (0 : Int) < MATE_SCORE := by norm_num [MATE_SCORE]
  simp only [abPrelude, timeUpCall]
  by_cases h4 : (st.nodes + 1) % 4096 = 0
  · simp only [h4, if_true]
    by_cases ho : o st.clock
    · simp only [ho, if_true]
      exact ⟨by omega, by omega, hTT⟩
    · simp only [Bool.not_eq_true] at ho
      simp only [ho, Bool.false_eq_true, if_false]
      exact abCore_bounds g d b α β _ k hg hTT h1 h2 h3 hk
  · simp only [h4, if_false, Bool.false_eq_true]
    exact abCore_bounds g d b α β _ k hg hTT h1 h2 h3 hk

lemma abLoop_bounds {B : Type} (g : Game B) (depth : Nat) (b : B) (β : Int)
    (rec : B → Int → Int → EngineSt → Int × EngineSt)
    (hrec : ∀ (b' : B) (α' β' : Int) (st' : EngineSt), TTInv st'.tt →
      -MATE_SCORE ≤ α' → α' < β' → β' ≤ MATE_SCORE →
      -MATE_SCORE < (rec b' α' β' st').1 ∧ (rec b' α' β' st').1 < MATE_SCORE ∧
      TTInv (rec b' α' β' st').2.tt)
    (hβ : β ≤ MATE_SCORE) :
    ∀ (L : List Move') (best : Int) (bm : Option Move') (α : Int)
      (st : EngineSt), TTInv st.tt → -MATE_SCORE ≤ α → α < β →
      best < MATE_SCORE →
      (best ≤ (abLoop g depth b β rec L best bm α st).1 ∧
       (abLoop g depth b β rec L best bm α st).1 < MATE_SCORE ∧
       (L ≠ [] → -MATE_SCORE < (abLoop g depth b β rec L best bm α st).1) ∧
       TTInv (abLoop g depth b β rec L best bm α st).2.2.tt) := by
  intro L
  induction L with
  | nil =>
    intro best bm α st hTT hα hαβ hbest
    exact ⟨le_refl _, hbest, fun h => absurd rfl h, hTT⟩
  | cons m ms ih =>
    intro best bm α st hTT hα hαβ hbest
    simp only [abLoop]
    obtain ⟨hcb1, hcb2, hcTT⟩ :=
      hrec (g.push b m) (-β) (-α) st hTT (by linarith) (by linarith) (by linarith)
    set rc := rec (g.push b m) (-β) (-α) st with hrc
    have hs1 : -MATE_SCORE < -rc.1 := by linarith
    have hs2 : -rc.1 < MATE_SCORE := by linarith
    have hbb1 : best ≤ (if best < -rc.1 then ((-rc.1 : Int), some m)
        else (best, bm)).1 := by
      split_ifs with h
      · exact le_of_lt h
      · exact le_refl _
    have hbb2 : (if best < -rc.1 then ((-rc.1 : Int), some m)
        else (best, bm)).1 < MATE_SCORE := by
      split_ifs with h
      · exact hs2
      · exact hbest
    have hbb3 : -MATE_SCORE < (if best < -rc.1 then ((-rc.1 : Int), some m)
        else (best, bm)).1 := by
      split_ifs with h
      · exact hs1
      · push_neg at h
        exact lt_of_lt_of_le hs1 h
    have hst2tt : ∀ (c : Bool) (st1 : EngineSt), TTInv st1.tt →
        TTInv (if c then st1
          else { st1 with history := fun kk =>
            if kk = (m.from_sq, m.to_sq) then st1.history kk + (depth : Int) * depth
            else st1.history kk }).tt := by
      intro c st1 h
      cases c <;> exact h
    by_cases has : α < -rc.1
    · simp only [if_pos has]
      by_cases hcut : β ≤ -rc.1
      · rw [if_pos hcut]
        refine ⟨hbb1, hbb2, fun _ => hbb3, ?_⟩
        by_cases hcap : g.isCapture b m
        · simp only [if_pos hcap]
          exact hcTT
        · simp only [if_neg hcap, storeKiller_tt]
          exact hcTT
      · rw [if_neg hcut]
        obtain ⟨hr1, hr2, hr3, hr4⟩ := ih
          (if best < -rc.1 then ((-rc.1 : Int), some m) else (best, bm)).1
          (if best < -rc.1 then ((-rc.1 : Int), some m) else (best, bm)).2
          (-rc.1)
          (if g.isCapture b m then rc.2
           else { rc.2 with history := fun kk =>
             if kk = (m.from_sq, m.to_sq) then rc.2.history kk + (depth : Int) * depth
             else rc.2.history kk })
          (hst2tt _ _ hcTT) (le_of_lt hs1) (not_le.mp hcut) hbb2
        exact ⟨le_trans hbb1 hr1, hr2, fun _ => lt_of_lt_of_le hbb3 hr1, hr4⟩
    · simp only [if_neg has]
      by_cases hcut : β ≤ α
      · exact absurd hcut (not_le.mpr hαβ)
      · rw [if_neg hcut]
        obtain ⟨hr1, hr2, hr3, hr4⟩ := ih
          (if best < -rc.1 then ((-rc.1 : Int), some m) else (best, bm)).1
          (if best < -rc.1 then ((-rc.1 : Int), some m) else (best, bm)).2
          α rc.2 hcTT hα hαβ hbb2
        exact ⟨le_trans hbb1 hr1, hr2, fun _ => lt_of_lt_of_le hbb3 hr1, hr4⟩

lemma alphaBeta_bounds {B : Type} (g : Game B) (o : Nat → Bool)
    (cfg : EngineCfg) (hg : GoodGame g) :
    ∀ (d : Nat) (b : B) (α β : Int) (st : EngineSt), TTInv st.tt →
      -MATE_SCORE ≤ α → α < β → β ≤ MATE_SCORE →
      -MATE_SCORE < (alphaBeta g o cfg d b α β st).1 ∧
      (alphaBeta g o cfg d b α β st).1 < MATE_SCORE ∧
      TTInv (alphaBeta g o cfg d b α β st).2.tt := by
  intro d
  induction d with
  | zero =>
    intro b α β st hTT h1 h2 h3
    simp only [alphaBeta]
    refine abPrelude_bounds g o 0 b α β st _ hg hTT h1 h2 h3 ?_
    intro α' β' ent st' hTT' hα' hαβ' hβ' _ _
    by_cases hq : cfg.useQuiescence
    · simp only [hq, if_true]
      obtain ⟨hq1, hq2⟩ := quiescence_bounds g hg cfg.quiescenceDepth st'.nodes
        b α' β' hα' hαβ' hβ'
      exact ⟨hq1, hq2, hTT'⟩
    · simp only [Bool.not_eq_true] at hq
      simp only [hq, Bool.false_eq_true, if_false]
      exact ⟨(hg.1 b).1, (hg.1 b).2, hTT'⟩
  | succ e ihe =>
    intro b α β st hTT h1 h2 h3
    simp only [alphaBeta]
    refine abPrelude_bounds g o (e + 1) b α β st _ hg hTT h1 h2 h3 ?_
    intro α' β' ent st' hTT' hα' hαβ' hβ' hmF hdF
    have hne : g.legalMoves b ≠ [] := by
      intro hnil
      rcases hg.2.2 b hnil with h | h | h | h
      · rw [h] at hmF
        exact absurd hmF (by simp)
      · rw [h] at hdF
        simp at hdF
      · rw [h] at hdF
        simp at hdF
      · rw [h] at hdF
        simp at hdF
    have hMoves : orderMoves g st'.killers st'.history b (e + 1)
        (ent.bind TTEntry.best_move) ≠ [] := by
      intro h0
      apply hne
      have hlen := (orderMoves_perm g st'.killers st'.history b (e + 1)
        (ent.bind TTEntry.best_move)).length_eq
      rw [h0] at hlen
      exact List.length_eq_zero.mp hlen.symm
    obtain ⟨hl1, hl2, hl3, hl4⟩ := abLoop_bounds g (e + 1) b β'
      (alphaBeta g o cfg e)
      (fun b' α'' β'' st'' hTT'' ha hb hc => ihe b' α'' β'' st'' hTT'' ha hb hc)
      hβ'
      (orderMoves g st'.killers st'.history b (e + 1) (ent.bind TTEntry.best_move))
      (-MATE_SCORE) none α' st' hTT' hα' hαβ' (by norm_num [MATE_SCORE])
    have hlow := hl3 hMoves
    exact ⟨hlow, hl2, ttInv_store _ _ _ _ _ _ _ hl4 ⟨hlow, hl2⟩⟩

lemma rootLoop_mem {B : Type} (g : Game B) (o : Nat → Bool) (cfg : EngineCfg)
    (b : B) (d : Nat) :
    ∀ (L : List Move') (best : Int) (bm : Option Move') (α : Int)
      (st : EngineSt),
      (∀ m ∈ L, m ∈ g.legalMoves b) →
      (∀ m', bm = some m' → m' ∈ g.legalMoves b) →
      ∀ m', (rootLoop g o cfg b d L best bm α st).2.1 = some m' →
        m' ∈ g.legalMoves b := by
  intro L
  induction L with
  | nil =>
    intro best bm α st _ hbm m' h
    exact hbm m' h
  | cons m ms ih =>
    intro best bm α st hL hbm m' h
    simp only [rootLoop] at h
    by_cases ht : (timeUpCall o st).1
    · rw [if_pos ht] at h
      exact hbm m' h
    · rw [if_neg ht] at h
      refine ih _ _ _ _ (fun x hx => hL x (List.mem_cons_of_mem m hx)) ?_ m' h
      intro m'' hm''
      by_cases hlt : best < -(alphaBeta g o cfg (d - 1) (g.push b m) (-MATE_SCORE)
          (-α) (timeUpCall o st).2).1
      · rw [if_pos hlt] at hm''
        cases hm''
        exact hL m (List.mem_cons_self m ms)
      · rw [if_neg hlt] at hm''
        exact hbm m'' hm''

lemma searchRoot_mem {B : Type} (g : Game B) (o : Nat → Bool) (cfg : EngineCfg)
    (b : B) (d : Nat) (st : EngineSt) :
    ∀ m', (searchRoot g o cfg b d st).2.1 = some m' → m' ∈ g.legalMoves b := by
  intro m' h
  exact rootLoop_mem g o cfg b d _ _ _ _ _
    (fun x hx => (orderMoves_perm g st.killers st.history b d none).subset hx)
    (fun _ hx => absurd hx (by simp)) m' h

lemma idLoop_mem {B : Type} (g : Game B) (o : Nat → Bool) (cfg : EngineCfg)
    (b : B) :
    ∀ (ds : List Nat) (bm : Option Move') (st : EngineSt),
      (∀ m', bm = some m' → m' ∈ g.legalMoves b) →
      ∀ m', (idLoop g o cfg b ds bm st).1 = some m' → m' ∈ g.legalMoves b := by
  intro ds
  induction ds with
  | nil =>
    intro bm st hbm m' h
    exact hbm m' h
  | cons dep ds ih =>
    intro bm st hbm m' h
    simp only [idLoop] at h
    by_cases ht : (timeUpCall o st).1
    · rw [if_pos ht] at h
      exact hbm m' h
    · rw [if_neg ht] at h
      rcases hr : (searchRoot g o cfg b dep (timeUpCall o st).2).2.1 with _ | m2
      · rw [hr] at h
        dsimp only at h
        split_ifs at h
        · exact hbm m' h
        · exact ih _ _ hbm m' h
      · rw [hr] at h
        dsimp only at h
        split_ifs at h with hmate htc2 htc3
        · exact hbm m' h
        · cases h
          exact searchRoot_mem g o cfg b dep _ _ hr
        · exact ih _ _ (fun m'' hm'' => hbm m'' hm'') m' h
        · exact ih _ _ (fun m'' hm'' => by
            cases hm''
            exact searchRoot_mem g o cfg b dep _ _ hr) m' h

lemma rootLoop_some {B : Type} (g : Game B) (o : Nat → Bool) (cfg : EngineCfg)
    (b : B) (d : Nat) (hg : GoodGame g) (ho : ∀ i, o i = false) :
    ∀ (L : List Move') (best : Int) (bm : Option Move') (α : Int)
      (st : EngineSt), TTInv st.tt → -MATE_SCORE ≤ α → α < MATE_SCORE →
      (bm = none → best = -MATE_SCORE) → (bm.isSome ∨ L ≠ []) →
      ((rootLoop g o cfg b d L best bm α st).2.1).isSome := by
  intro L
  induction L with
  | nil =>
    intro best bm α st _ _ _ _ hor
    rcases hor with h | h
    · exact h
    · exact absurd rfl h
  | cons m ms ih =>
    intro best bm α st hTT hα hαM hinv _
    simp only [rootLoop, timeUpCall, ho, Bool.false_eq_true, if_false]
    obtain ⟨hb1, hb2, hb3⟩ := alphaBeta_bounds g o cfg hg (d - 1) (g.push b m)
      (-MATE_SCORE) (-α) { st with clock := st.clock + 1 } hTT (le_refl _)
      (by linarith) (by linarith)
    set rc := alphaBeta g o cfg (d - 1) (g.push b m) (-MATE_SCORE) (-α)
      { st with clock := st.clock + 1 } with hrc
    have hs1 : -MATE_SCORE < -rc.1 := by linarith
    have hs2 : -rc.1 < MATE_SCORE := by linarith
    have hbmSome : ((if best < -rc.1 then ((-rc.1 : Int), some m)
        else (best, bm)).2).isSome := by
      split_ifs with h
      · rfl
      · push_neg at h
        rcases hbm : bm with _ | mm
        · have := hinv hbm
          rw [this] at h
          exact absurd (lt_of_lt_of_le hs1 h) (lt_irrefl _)
        · rfl
    refine ih _ _ _ _ hb3 ?_ ?_ ?_ (Or.inl hbmSome)
    · split_ifs with h
      · exact le_of_lt hs1
      · exact hα
    · split_ifs with h
      · exact hs2
      · exact hαM
    · intro hnone
      rw [hnone] at hbmSome
      exact absurd hbmSome (by simp)

lemma idLoop_some {B : Type} (g : Game B) (o : Nat → Bool) (cfg : EngineCfg)
    (b : B) :
    ∀ (ds : List Nat) (m : Move') (st : EngineSt),
      ((idLoop g o cfg b ds (some m) st).1).isSome := by
  intro ds
  induction ds with
  | nil => intro m st; rfl
  | cons dep ds ih =>
    intro m st
    simp only [idLoop]
    by_cases ht : (timeUpCall o st).1
    · rw [if_pos ht]
      rfl
    · rw [if_neg ht]
      rcases hr : (searchRoot g o cfg b dep (timeUpCall o st).2).2.1 with _ | m2
      · dsimp only
        split_ifs
        · rfl
        · exact ih m _
      · dsimp only
        split_ifs
        · rfl
        · rfl
        · exact ih m _
        · exact ih m2 _

lemma searchRoot_some {B : Type} (g : Game B) (o : Nat → Bool) (cfg : EngineCfg)
    (b : B) (d : Nat) (st : EngineSt) (hg : GoodGame g)
    (ho : ∀ i, o i = false) (hTT : TTInv st.tt)
    (hne : g.legalMoves b ≠ []) :
    ((searchRoot g o cfg b d st).2.1).isSome := by
  unfold searchRoot
  refine rootLoop_some g o cfg b d hg ho _ _ _ _ _ hTT (le_refl _)
    (by norm_num [MATE_SCORE]) (fun _ => rfl) (Or.inr ?_)
  intro h0
  apply hne
  have hlen := (orderMoves_perm g st.killers st.history b d none).length_eq
  rw [h0] at hlen
  exact List.length_eq_zero.mp hlen.symm

lemma idLoop_first_some {B : Type} (g : Game B) (o : Nat → Bool)
    (cfg : EngineCfg) (b : B) (hg : GoodGame g) (ho : ∀ i, o i = false)
    (hne : g.legalMoves b ≠ []) (dep : Nat) (ds : List Nat) (st1 : EngineSt)
    (hTT : TTInv st1.tt) :
    ((idLoop g o cfg b (dep :: ds) none st1).1).isSome := by
  simp only [idLoop, timeUpCall, ho, Bool.false_eq_true, if_false]
  rcases hr : (searchRoot g o cfg b dep
      { st1 with clock := st1.clock + 1 }).2.1 with _ | m2
  · have hs := searchRoot_some g o cfg b dep
      { st1 with clock := st1.clock + 1 } hg ho
      (fun kk e he => hTT kk e he) hne
    rw [hr] at hs
    exact absurd hs (by simp)
  · dsimp only
    split_ifs
    · rfl
    · exact idLoop_some g o cfg b ds m2 _

/-- C3: `find_best_move` returns `None` on a position with no legal moves
(the defensive check); any move it returns is a legal move of the root
position, whatever the deadline oracle does; and with an unlimited deadline,
at least one legal move and a positive configured maximum depth, it returns
some legal move — depth 1 always completes, so `None` can only arise when
even the one-ply search is cut off by the deadline. -/
theorem findBestMove_spec {B : Type} (g : Game B) (o : Nat → Bool)
    (cfg : EngineCfg) (b : B) (st : EngineSt) :
    (g.legalMoves b = [] → (findBestMove g o cfg b st).1 = none) ∧
    (∀ m, (findBestMove g o cfg b st).1 = some m → m ∈ g.legalMoves b) ∧
    (GoodGame g → TTInv st.tt → g.legalMoves b ≠ [] → 1 ≤ cfg.maxDepth →
      (∀ i, o i = false) →
      ∃ m, (findBestMove g o cfg b st).1 = some m ∧ m ∈ g.legalMoves b) := by
  have hmem : ∀ m, (findBestMove g o cfg b st).1 = some m →
      m ∈ g.legalMoves b := by
    intro m h
    unfold findBestMove at h
    by_cases hnil : g.legalMoves b = []
    · rw [if_pos hnil] at h
      exact absurd h (by simp)
    · rw [if_neg hnil] at h
      exact idLoop_mem g o cfg b _ _ _ (fun _ hx => absurd hx (by simp)) m h
  refine ⟨?_, hmem, ?_⟩
  · intro hnil
    simp [findBestMove, hnil]
  · intro hg hTT hne hmd ho
    have hsome : ((findBestMove g o cfg b st).1).isSome := by
      unfold findBestMove
      rw [if_neg hne]
      obtain ⟨k, hk⟩ : ∃ k, cfg.maxDepth = k + 1 := ⟨cfg.maxDepth - 1, by omega⟩
      rw [hk]
      have hrange : List.range' 1 (k + 1) = 1 :: List.range' 2 k := rfl
      rw [hrange]
      exact idLoop_first_some g o cfg b hg ho hne 1 (List.range' 2 k) _
        (fun kk e he => hTT kk e he)
    obtain ⟨m, hm⟩ := Option.isSome_iff_exists.mp hsome
    exact ⟨m, hm, hmem m hm⟩

/-- Closed instance of `findBestMove_spec`: on `plainGame` (one legal move
everywhere) with an unlimited deadline and a fresh engine, the search
returns that legal move. -/
theorem findBestMove_spec_witness :
    ∃ m, (findBestMove plainGame oracleNever cfgNoQ 0 (engineInit cfgNoQ)).1
        = some m ∧ m ∈ plainGame.legalMoves 0 :=
  (findBestMove_spec plainGame oracleNever cfgNoQ 0 (engineInit cfgNoQ)).2.2
    ⟨fun _ => by norm_num [plainGame, MATE_SCORE],
     fun _ => by norm_num [plainGame, MATE_SCORE],
     fun _ h => absurd h (by simp [plainGame])⟩
    (fun kk e he => Option.noConfusion he)
    (by simp [plainGame])
    (by norm_num [cfgNoQ])
    (fun i => rfl)
